import Mathlib

/-!
Verification of the prefix-trie map core (repository APNIC-net/prefix-trie).

The repository ships one source file, src/src/map/entry.rs, holding the entry
abstraction (Entry, VacantEntry, OccupiedEntry) and the insertion commit path
VacantEntry::_insert.  The surrounding container (the PrefixMap arena, the
directional walk, the direction resolver and the read-only lookup) is not part
of src/ and is modelled here from the specification (spec sections 3, 4.1, 4.2
and 6).  Prefixes are embedded as lists of bits (List Bool), exactly the
capability the spec requires of the key type: length, bit indexing, longest
common prefix, and equality.
-/

namespace PrefixTrie

/-! ### Small list helpers -/

theorem getD_append_left {α : Type} (l l2 : List α) (d : α) (i : Nat) (h : i < l.length) :
    (l ++ l2).getD i d = l.getD i d := by
  simp [List.getD_eq_getElem?_getD, List.getElem?_append, h]

theorem getD_append_right {α : Type} (l l2 : List α) (d : α) (k : Nat) :
    (l ++ l2).getD (l.length + k) d = l2.getD k d := by
  simp [List.getD_eq_getElem?_getD, List.getElem?_append]

theorem getD_set_self {α : Type} (l : List α) (a d : α) (i : Nat) (h : i < l.length) :
    (l.set i a).getD i d = a := by
  simp [List.getD_eq_getElem?_getD, List.getElem?_set_self h]

theorem getD_set_ne {α : Type} (l : List α) (a d : α) (i j : Nat) (h : i ≠ j) :
    (l.set i a).getD j d = l.getD j d := by
  simp [List.getD_eq_getElem?_getD, List.getElem?_set_ne h]

theorem getD_of_ge {α : Type} (l : List α) (d : α) (i : Nat) (h : l.length ≤ i) :
    l.getD i d = d := by
  simp [List.getD_eq_getElem?_getD, List.getElem?_eq_none h]

/-- Bit of a prefix q extending p at the position just past p: the branching bit. -/
def sideBit (p q : List Bool) : Bool := q.getD p.length false

/-- Longest common prefix of two bit strings. -/
def lcp : List Bool → List Bool → List Bool
  | a :: as, b :: bs => if a = b then a :: lcp as bs else []
  | _, _ => []

theorem lcp_prefix_left : ∀ x y : List Bool, lcp x y <+: x
  | [], _ => by simp [lcp]
  | _ :: _, [] => by simp [lcp]
  | a :: as, b :: bs => by
    by_cases hab : a = b
    · subst hab
      have hred : lcp (a :: as) (a :: bs) = a :: lcp as bs := by simp [lcp]
      rw [hred]
      exact List.cons_prefix_cons.2 ⟨rfl, lcp_prefix_left as bs⟩
    · simp [lcp, hab]

theorem lcp_prefix_right : ∀ x y : List Bool, lcp x y <+: y
  | [], _ => by simp [lcp]
  | _ :: _, [] => by simp [lcp]
  | a :: as, b :: bs => by
    by_cases hab : a = b
    · subst hab
      have hred : lcp (a :: as) (a :: bs) = a :: lcp as bs := by simp [lcp]
      rw [hred]
      exact List.cons_prefix_cons.2 ⟨rfl, lcp_prefix_right as bs⟩
    · simp [lcp, hab]

theorem prefix_lcp : ∀ p x y : List Bool, p <+: x → p <+: y → p <+: lcp x y
  | [], _, _, _, _ => by simp
  | _ :: _, [], _, hx, _ => by simpa using hx.length_le
  | _ :: _, _ :: _, [], _, hy => by simpa using hy.length_le
  | p :: ps, a :: as, b :: bs, hx, hy => by
    rcases List.cons_prefix_cons.1 hx with ⟨hpa, hx'⟩
    rcases List.cons_prefix_cons.1 hy with ⟨hpb, hy'⟩
    subst hpa
    subst hpb
    have hred : lcp (p :: as) (p :: bs) = p :: lcp as bs := by simp [lcp]
    rw [hred]
    exact List.cons_prefix_cons.2 ⟨rfl, prefix_lcp ps as bs hx' hy'⟩

theorem lcp_diverge : ∀ x y : List Bool, ¬ x <+: y → ¬ y <+: x →
    (lcp x y).length < x.length ∧ (lcp x y).length < y.length ∧
      x.getD (lcp x y).length false ≠ y.getD (lcp x y).length false
  | [], y, hxy, _ => absurd (List.nil_prefix) hxy
  | _ :: _, [], _, hyx => absurd (List.nil_prefix) hyx
  | a :: as, b :: bs, hxy, hyx => by
    by_cases hab : a = b
    · subst hab
      have h1 : ¬ as <+: bs := fun h => hxy (List.cons_prefix_cons.2 ⟨rfl, h⟩)
      have h2 : ¬ bs <+: as := fun h => hyx (List.cons_prefix_cons.2 ⟨rfl, h⟩)
      have ih := lcp_diverge as bs h1 h2
      simpa [lcp, Nat.succ_lt_succ_iff] using ih
    · simp [lcp, hab]

theorem getD_of_extends {x y : List Bool} (h : x <+: y) {i : Nat} (hi : i < x.length) (d : Bool) :
    y.getD i d = x.getD i d := by
  rcases h with ⟨z, rfl⟩
  exact getD_append_left x z d i hi

theorem length_lt_of_prefix_ne {x y : List Bool} (h : x <+: y) (hne : x ≠ y) :
    x.length < y.length := by
  rcases Nat.lt_or_ge x.length y.length with hlt | hge
  · exact hlt
  · exact absurd (h.eq_of_length (Nat.le_antisymm h.length_le hge)) hne

theorem lcp_eq_of_diverge {p x y : List Bool} (hx : p <+: x) (hy : p <+: y)
    (hne : x.getD p.length false ≠ y.getD p.length false) :
    lcp x y = p := by
  have hp : p <+: lcp x y := prefix_lcp p x y hx hy
  rcases Nat.lt_or_ge p.length (lcp x y).length with hlt | hge
  · exfalso
    apply hne
    rw [getD_of_extends (lcp_prefix_left x y) hlt, getD_of_extends (lcp_prefix_right x y) hlt]
  · exact (hp.eq_of_length (Nat.le_antisymm hp.length_le hge)).symm

/-! ### Data model

Modelled from the spec (section 3): a node is a record holding the prefix, an
optional value (a node with no value is a branch node), and two optional child
indices into the arena. -/

/-- Modelled from the spec: the trie node record of section 3 (prefix, optional
value, left and right child indices). -/
structure Node (T : Type) where
  pfx : List Bool
  value : Option T
  left : Option Nat
  right : Option Nat
  deriving DecidableEq, Repr

/-- Modelled from the spec: the arena-backed map (section 3): a dense,
index-addressed store of trie nodes. -/
structure PrefixMap (T : Type) where
  table : List (Node T)
  deriving DecidableEq, Repr

/-- Modelled from the spec: an empty trie; the arena root occupies index 0 and is
a zero-length placeholder branch (sections 3 and 6, new()). -/
def PrefixMap.new (T : Type) : PrefixMap T := ⟨[⟨[], none, none, none⟩]⟩

/-- Node stored at an index (out-of-range reads yield an inert childless node). -/
def nodeAt {T : Type} (m : PrefixMap T) (i : Nat) : Node T :=
  m.table.getD i ⟨[], none, none, none⟩

/-- Child slot of a node: the right slot when the flag is true, else the left slot. -/
def childAt {T : Type} (m : PrefixMap T) (i : Nat) (s : Bool) : Option Nat :=
  if s then (nodeAt m i).right else (nodeAt m i).left

/-- Modelled from the spec: arena node allocation (section 9, arena): append a
fresh node and return its stable index. -/
def new_node {T : Type} (m : PrefixMap T) (p : List Bool) (v : Option T) :
    PrefixMap T × Nat :=
  (⟨m.table ++ [⟨p, v, none, none⟩]⟩, m.table.length)

/-- Modelled from the spec: rewrite a child pointer and return the child index the
slot previously held (the displaced subtree). -/
def set_child {T : Type} (m : PrefixMap T) (i c : Nat) (s : Bool) :
    PrefixMap T × Option Nat :=
  let n := nodeAt m i
  if s then (⟨m.table.set i { n with right := some c }⟩, n.right)
  else (⟨m.table.set i { n with left := some c }⟩, n.left)

/-- Replace the stored value slot of the node at an index. -/
def setValue {T : Type} (m : PrefixMap T) (i : Nat) (v : Option T) : PrefixMap T :=
  ⟨m.table.set i { nodeAt m i with value := v }⟩

/-- Direction outcome of the resolver; mirrors the five-outcome table of spec
section 4.2 (and the DirectionForInsert payload consumed by
VacantEntry::_insert in src/src/map/entry.rs). -/
inductive DirectionForInsert where
  | reached
  | newLeaf (right : Bool)
  | newChild (right child_right : Bool)
  | newBranch (branchPfx : List Bool) (right pfxRight : Bool)
  | enter (next : Nat) (right : Bool)
  deriving DecidableEq, Repr

/-- Modelled from the spec: the direction resolver of section 4.2.  The resolver
is invoked only at nodes whose prefix contains the key (the root carries the
empty prefix and Enter preserves containment), so the divergent cases NewChild
and NewBranch are detected at the parent inspecting the child on the branching
side; this matches VacantEntry::_insert, which splices at the child slot of the
captured index. -/
def getDirectionForInsert {T : Type} (m : PrefixMap T) (cur : Nat) (key : List Bool) :
    DirectionForInsert :=
  let curP := (nodeAt m cur).pfx
  if curP = key then .reached
  else
    let right := sideBit curP key
    match childAt m cur right with
    | none => .newLeaf right
    | some c =>
      let childP := (nodeAt m c).pfx
      if childP <+: key then .enter c right
      else if key <+: childP then .newChild right (sideBit key childP)
      else .newBranch (lcp key childP) right (sideBit (lcp key childP) key)

/-- Modelled from the spec: the directional walk of section 4.1 (entry): starting
from the root, apply the resolver and follow Enter until a terminal direction is
produced.  The fuel argument bounds the walk; on well-formed maps it never runs
out. -/
def entryGo {T : Type} (m : PrefixMap T) (key : List Bool) :
    Nat → Nat → Option (Nat × DirectionForInsert)
  | _, 0 => none
  | cur, fuel + 1 =>
    match getDirectionForInsert m cur key with
    | .enter next _ => entryGo m key next fuel
    | d => some (cur, d)

/-- The entry handle: either a missing-entry description (key, captured index and
direction, as in VacantEntry) or a handle on an existing node (OccupiedEntry).
Mirrors Entry in src/src/map/entry.rs. -/
inductive EntryE where
  | vacant (key : List Bool) (idx : Nat) (dir : DirectionForInsert)
  | occupied (idx : Nat)
  deriving DecidableEq, Repr

/-- Modelled from the spec: entry(key) of section 4.1: run the walk; the entry is
Occupied iff the walk reaches a node whose prefix equals the key and that node
holds a value, else Vacant. -/
def PrefixMap.entry {T : Type} (m : PrefixMap T) (key : List Bool) : Option EntryE :=
  match entryGo m key 0 (key.length + 1) with
  | none => none
  | some (idx, .reached) =>
    if (nodeAt m idx).value.isSome then some (.occupied idx)
    else some (.vacant key idx .reached)
  | some (idx, d) => some (.vacant key idx d)

/-- Modelled from the spec: get(key) of section 4.1: walk from the root; on an
exact prefix match return the stored value, descend while the node prefix is a
strict ancestor of the key, and report absence otherwise.  Never mutates, never
allocates. -/
def getGo {T : Type} (m : PrefixMap T) (key : List Bool) : Nat → Nat → Option T
  | _, 0 => none
  | cur, fuel + 1 =>
    let n := nodeAt m cur
    if n.pfx = key then n.value
    else if n.pfx <+: key then
      match childAt m cur (sideBit n.pfx key) with
      | none => none
      | some c => getGo m key c fuel
    else none

/-- Modelled from the spec: the read-only exact-match lookup (section 4.1). -/
def PrefixMap.get {T : Type} (m : PrefixMap T) (key : List Bool) : Option T :=
  getGo m key 0 (key.length + 1)

/-! ### The entry commit path, embedded from src/src/map/entry.rs -/

/-- Embeds VacantEntry::_insert (src/src/map/entry.rs lines 236-268): commit the
captured direction.  Reached reuses the node; NewLeaf allocates one leaf;
NewChild allocates one node and takes over the displaced child; NewBranch
allocates a valueless branch plus the new leaf and splices the branch in at the
captured child slot.  The Enter direction is unreachable in the source
(unreachable!()), and the set_child results unwrapped in the source are modelled
by the Option: a none result is a panic of the original code. -/
def vacantInsert {T : Type} (m : PrefixMap T) (key : List Bool) (idx : Nat)
    (dir : DirectionForInsert) (v : T) : Option (PrefixMap T × Nat) :=
  match dir with
  | .reached => some (setValue m idx (some v), idx)
  | .newLeaf right =>
    let r1 := new_node m key (some v)
    some ((set_child r1.1 idx r1.2 right).1, r1.2)
  | .newChild right child_right =>
    let r1 := new_node m key (some v)
    let r2 := set_child r1.1 idx r1.2 right
    match r2.2 with
    | none => none
    | some child => some ((set_child r2.1 r1.2 child child_right).1, r1.2)
  | .newBranch branchPfx right pfxRight =>
    let r1 := new_node m branchPfx none
    let r2 := new_node r1.1 key (some v)
    let r3 := set_child r2.1 idx r1.2 right
    match r3.2 with
    | none => none
    | some child =>
      let r4 := set_child r3.1 r1.2 r2.2 pfxRight
      some ((set_child r4.1 r1.2 child (!pfxRight)).1, r2.2)
  | .enter _ _ => none

/-- Embeds Entry::insert (src/src/map/entry.rs lines 113-122): a Vacant entry
commits and yields no prior value; an Occupied entry swaps the value in and
returns the old one (Option::replace). -/
def entryInsert {T : Type} (m : PrefixMap T) (e : EntryE) (v : T) :
    Option (PrefixMap T × Option T) :=
  match e with
  | .vacant k i d => (vacantInsert m k i d v).map (fun r => (r.1, none))
  | .occupied i => some (setValue m i (some v), (nodeAt m i).value)

/-- Modelled from the spec: insert(key, value) of section 4.1 is sugar over
entry(key).insert(value). -/
def PrefixMap.insert {T : Type} (m : PrefixMap T) (key : List Bool) (v : T) :
    Option (PrefixMap T × Option T) :=
  match m.entry key with
  | none => none
  | some e => entryInsert m e v

/-- Embeds Entry::or_insert (src/src/map/entry.rs lines 142-148): a Vacant entry
commits the default and yields the freshly stored value slot
(value.as_mut().unwrap() in the source); an Occupied entry yields
value.get_or_insert(default). -/
def orInsert {T : Type} (m : PrefixMap T) (e : EntryE) (d : T) :
    Option (PrefixMap T × Option T) :=
  match e with
  | .vacant k i dir => (vacantInsert m k i dir d).map (fun r => (r.1, (nodeAt r.1 r.2).value))
  | .occupied i =>
    match (nodeAt m i).value with
    | some x => some (m, some x)
    | none => some (setValue m i (some d), some d)

/-- Embeds Entry::or_insert_with (src/src/map/entry.rs lines 168-174).  The third
component records whether the default-producing closure was invoked, mirroring
exactly the branches of the source in which default() is evaluated. -/
def orInsertWith {T : Type} (m : PrefixMap T) (e : EntryE) (f : Unit → T) :
    Option (PrefixMap T × Option T × Bool) :=
  match e with
  | .vacant k i dir =>
    (vacantInsert m k i dir (f ())).map (fun r => (r.1, (nodeAt r.1 r.2).value, true))
  | .occupied i =>
    match (nodeAt m i).value with
    | some x => some (m, some x, false)
    | none => some (setValue m i (some (f ())), some (f ()), true)

/-- Embeds Entry::and_modify (src/src/map/entry.rs lines 190-199): apply the
function in place through value.as_mut().map(f) when Occupied; pass a Vacant
entry through unchanged. -/
def andModify {T : Type} (m : PrefixMap T) (e : EntryE) (f : T → T) :
    PrefixMap T × EntryE :=
  match e with
  | .vacant k i d => (m, .vacant k i d)
  | .occupied i => (setValue m i ((nodeAt m i).value.map f), .occupied i)

/-- Embeds OccupiedEntry::get (src/src/map/entry.rs line 309): the source unwraps
the stored value; the Option models that unwrap. -/
def occGet {T : Type} (m : PrefixMap T) (i : Nat) : Option T := (nodeAt m i).value

/-- Embeds OccupiedEntry::insert (src/src/map/entry.rs line 353):
value.replace(v).unwrap(); the returned Option models the unwrap. -/
def occInsert {T : Type} (m : PrefixMap T) (i : Nat) (v : T) :
    PrefixMap T × Option T :=
  (setValue m i (some v), (nodeAt m i).value)

/-- Embeds OccupiedEntry::remove (src/src/map/entry.rs line 375):
value.take().unwrap(); the node record itself stays in the arena. -/
def occRemove {T : Type} (m : PrefixMap T) (i : Nat) : PrefixMap T × Option T :=
  (setValue m i none, (nodeAt m i).value)

/-- Run a sequence of inserts from a starting map, failing if any insert fails. -/
def insertAll {T : Type} : PrefixMap T → List (List Bool × T) → Option (PrefixMap T)
  | m, [] => some m
  | m, (k, v) :: rest =>
    match m.insert k v with
    | none => none
    | some r => insertAll r.1 rest

/-! ### Structural invariant (spec section 3, Invariants) -/

/-- Conditions on one child slot: the child index is in range, the child prefix
strictly extends the parent prefix, and the branching bit selects the slot. -/
def edgeOK {T : Type} (m : PrefixMap T) (i : Nat) (s : Bool) : Prop :=
  match childAt m i s with
  | none => True
  | some c => c < m.table.length ∧
      (nodeAt m i).pfx <+: (nodeAt m c).pfx ∧
      (nodeAt m i).pfx.length < (nodeAt m c).pfx.length ∧
      (nodeAt m c).pfx.getD (nodeAt m i).pfx.length false = s

/-- Every child slot of every node satisfies the edge conditions. -/
def edgesOK {T : Type} (m : PrefixMap T) : Prop :=
  ∀ i, i < m.table.length → ∀ s, edgeOK m i s

/-- Membership of a node in the subtree rooted at an index (reflexive-transitive
closure of the child relation). -/
inductive InSub {T : Type} (m : PrefixMap T) : Nat → Nat → Prop where
  | refl (i : Nat) : InSub m i i
  | step {i j : Nat} (s : Bool) {c : Nat} :
      childAt m i s = some c → InSub m c j → InSub m i j

/-- Well-formedness: nonempty arena rooted at index 0 with the empty prefix, all
edges well formed, every node reachable from the root, and no two nodes sharing
a prefix. -/
def WF {T : Type} (m : PrefixMap T) : Prop :=
  0 < m.table.length ∧ (nodeAt m 0).pfx = [] ∧ edgesOK m ∧
    (∀ j, j < m.table.length → InSub m 0 j) ∧
    (∀ i j, i < m.table.length → j < m.table.length →
      (nodeAt m i).pfx = (nodeAt m j).pfx → i = j)

theorem childAt_some_lt {T : Type} {m : PrefixMap T} {i c : Nat} {s : Bool}
    (h : childAt m i s = some c) : i < m.table.length := by
  by_contra hge
  have hn : nodeAt m i = ⟨[], none, none, none⟩ :=
    getD_of_ge m.table _ i (Nat.le_of_not_lt hge)
  cases s <;> simp [childAt, hn] at h

theorem edge_facts {T : Type} {m : PrefixMap T} (hE : edgesOK m) {i c : Nat} {s : Bool}
    (h : childAt m i s = some c) :
    c < m.table.length ∧ (nodeAt m i).pfx <+: (nodeAt m c).pfx ∧
      (nodeAt m i).pfx.length < (nodeAt m c).pfx.length ∧
      (nodeAt m c).pfx.getD (nodeAt m i).pfx.length false = s := by
  have hi : i < m.table.length := childAt_some_lt h
  have he := hE i hi s
  rw [edgeOK, h] at he
  exact he

theorem InSub.trans {T : Type} {m : PrefixMap T} {a b c : Nat}
    (h1 : InSub m a b) (h2 : InSub m b c) : InSub m a c := by
  induction h1 with
  | refl => exact h2
  | step s hc _ ih => exact .step s hc (ih h2)

theorem inSub_pfx {T : Type} {m : PrefixMap T} (hE : edgesOK m) {a j : Nat}
    (h : InSub m a j) :
    (nodeAt m a).pfx <+: (nodeAt m j).pfx ∧
      (a = j ∨ (nodeAt m a).pfx.length < (nodeAt m j).pfx.length) := by
  induction h with
  | refl => exact ⟨List.prefix_refl _, Or.inl rfl⟩
  | step s hc _ ih =>
    rcases edge_facts hE hc with ⟨_, hp, hl, _⟩
    refine ⟨hp.trans ih.1, Or.inr ?_⟩
    rcases ih.2 with heq | hlt
    · rw [← heq]; exact hl
    · exact Nat.lt_trans hl hlt

theorem inSub_lt_length {T : Type} {m : PrefixMap T} (hE : edgesOK m) {a j : Nat}
    (h : InSub m a j) (ha : a < m.table.length) : j < m.table.length := by
  induction h with
  | refl => exact ha
  | step s hc _ ih => exact ih (edge_facts hE hc).1

/-! ### Characterization of the mutation primitives -/

theorem childAt_congr {T : Type} {m1 m2 : PrefixMap T} {j : Nat}
    (h : nodeAt m1 j = nodeAt m2 j) (s : Bool) : childAt m1 j s = childAt m2 j s := by
  cases s <;> simp [childAt, h]

theorem childAt_eq_of_nodeAt {T : Type} {m : PrefixMap T} {j : Nat} {nd : Node T}
    (h : nodeAt m j = nd) (t : Bool) : childAt m j t = if t then nd.right else nd.left := by
  cases t <;> simp [childAt, h]

theorem childAt_none_of_ge {T : Type} {m : PrefixMap T} {j : Nat}
    (h : m.table.length ≤ j) (s : Bool) : childAt m j s = none := by
  have hn : nodeAt m j = ⟨[], none, none, none⟩ := getD_of_ge m.table _ j h
  cases s <;> simp [childAt, hn]

theorem new_node_length {T : Type} (m : PrefixMap T) (p : List Bool) (v : Option T) :
    ((new_node m p v).1).table.length = m.table.length + 1 := by
  simp [new_node]

theorem nodeAt_new_node_lt {T : Type} (m : PrefixMap T) (p : List Bool) (v : Option T)
    {j : Nat} (h : j < m.table.length) : nodeAt (new_node m p v).1 j = nodeAt m j := by
  simp only [new_node, nodeAt]
  exact getD_append_left _ _ _ _ h

theorem nodeAt_new_node_self {T : Type} (m : PrefixMap T) (p : List Bool) (v : Option T) :
    nodeAt (new_node m p v).1 m.table.length = ⟨p, v, none, none⟩ := by
  simp only [new_node, nodeAt]
  have h0 := getD_append_right m.table [(⟨p, v, none, none⟩ : Node T)]
    (⟨[], none, none, none⟩ : Node T) 0
  rw [Nat.add_zero] at h0
  rw [h0]
  rfl

theorem set_child_snd {T : Type} (m : PrefixMap T) (i c : Nat) (s : Bool) :
    (set_child m i c s).2 = childAt m i s := by
  cases s <;> simp [set_child, childAt]

theorem set_child_length {T : Type} (m : PrefixMap T) (i c : Nat) (s : Bool) :
    ((set_child m i c s).1).table.length = m.table.length := by
  cases s <;> simp [set_child]

theorem nodeAt_set_child_ne {T : Type} (m : PrefixMap T) (i c : Nat) (s : Bool)
    {j : Nat} (h : j ≠ i) : nodeAt (set_child m i c s).1 j = nodeAt m j := by
  cases s <;> simp only [set_child, nodeAt] <;>
    exact getD_set_ne _ _ _ _ _ (fun he => h he.symm)

theorem pfx_set_child_self {T : Type} (m : PrefixMap T) (i c : Nat) (s : Bool)
    (h : i < m.table.length) :
    (nodeAt (set_child m i c s).1 i).pfx = (nodeAt m i).pfx := by
  cases s <;> simp [set_child, nodeAt, List.getElem?_set_self h]

theorem value_set_child_self {T : Type} (m : PrefixMap T) (i c : Nat) (s : Bool)
    (h : i < m.table.length) :
    (nodeAt (set_child m i c s).1 i).value = (nodeAt m i).value := by
  cases s <;> simp [set_child, nodeAt, List.getElem?_set_self h]

theorem childAt_set_child_self {T : Type} (m : PrefixMap T) (i c : Nat) (s : Bool)
    (h : i < m.table.length) (t : Bool) :
    childAt (set_child m i c s).1 i t = if t = s then some c else childAt m i t := by
  cases s <;> cases t <;>
    simp [set_child, childAt, nodeAt, List.getElem?_set_self h]

theorem setValue_length {T : Type} (m : PrefixMap T) (i : Nat) (v : Option T) :
    ((setValue m i v).table).length = m.table.length := by
  simp [setValue]

theorem nodeAt_setValue_ne {T : Type} (m : PrefixMap T) (i : Nat) (v : Option T)
    {j : Nat} (h : j ≠ i) : nodeAt (setValue m i v) j = nodeAt m j := by
  simp only [setValue, nodeAt]
  exact getD_set_ne _ _ _ _ _ (fun he => h he.symm)

theorem nodeAt_setValue_self {T : Type} (m : PrefixMap T) (i : Nat) (v : Option T)
    (h : i < m.table.length) :
    nodeAt (setValue m i v) i = { nodeAt m i with value := v } := by
  simp only [setValue, nodeAt]
  exact getD_set_self _ _ _ _ h

theorem pfx_setValue {T : Type} (m : PrefixMap T) (i : Nat) (v : Option T) (j : Nat) :
    (nodeAt (setValue m i v) j).pfx = (nodeAt m j).pfx := by
  by_cases hij : j = i
  · subst hij
    by_cases hi : j < m.table.length
    · rw [nodeAt_setValue_self m j v hi]
    · have hge := Nat.le_of_not_lt hi
      simp only [setValue, nodeAt]
      rw [getD_of_ge _ _ _ (by simpa using hge), getD_of_ge _ _ _ hge]
  · rw [nodeAt_setValue_ne m i v hij]

theorem childAt_setValue {T : Type} (m : PrefixMap T) (i : Nat) (v : Option T)
    (j : Nat) (s : Bool) : childAt (setValue m i v) j s = childAt m j s := by
  by_cases hij : j = i
  · subst hij
    by_cases hi : j < m.table.length
    · cases s <;> simp [childAt, nodeAt_setValue_self m j v hi]
    · have hge := Nat.le_of_not_lt hi
      have h1 : nodeAt (setValue m j v) j = ⟨[], none, none, none⟩ := by
        simp only [setValue, nodeAt]
        exact getD_of_ge _ _ _ (by simpa using hge)
      have h2 : nodeAt m j = ⟨[], none, none, none⟩ := getD_of_ge _ _ _ hge
      cases s <;> simp [childAt, h1, h2]
  · exact childAt_congr (nodeAt_setValue_ne m i v hij) s

/-! ### Resolver inversion -/

theorem gdfi_of_eq {T : Type} {m : PrefixMap T} {cur : Nat} {key : List Bool}
    (h : (nodeAt m cur).pfx = key) : getDirectionForInsert m cur key = .reached := by
  simp [getDirectionForInsert, h]

theorem gdfi_reached {T : Type} {m : PrefixMap T} {cur : Nat} {key : List Bool}
    (h : getDirectionForInsert m cur key = .reached) : (nodeAt m cur).pfx = key := by
  by_cases h1 : (nodeAt m cur).pfx = key
  · exact h1
  · exfalso
    simp only [getDirectionForInsert, h1, if_false] at h
    cases hc : childAt m cur (sideBit (nodeAt m cur).pfx key) with
    | none => rw [hc] at h; simp at h
    | some c =>
      rw [hc] at h
      by_cases h2 : (nodeAt m c).pfx <+: key
      · simp [h2] at h
      · by_cases h3 : key <+: (nodeAt m c).pfx <;> simp [h2, h3] at h

theorem gdfi_enter {T : Type} {m : PrefixMap T} {cur : Nat} {key : List Bool}
    {nx : Nat} {r : Bool} (h : getDirectionForInsert m cur key = .enter nx r) :
    (nodeAt m cur).pfx ≠ key ∧ r = sideBit (nodeAt m cur).pfx key ∧
      childAt m cur r = some nx ∧ (nodeAt m nx).pfx <+: key := by
  by_cases h1 : (nodeAt m cur).pfx = key
  · simp [getDirectionForInsert, h1] at h
  · simp only [getDirectionForInsert, h1, if_false] at h
    cases hc : childAt m cur (sideBit (nodeAt m cur).pfx key) with
    | none => rw [hc] at h; simp at h
    | some c =>
      rw [hc] at h
      by_cases h2 : (nodeAt m c).pfx <+: key
      · simp only [h2, if_true] at h
        have hcn : c = nx ∧ sideBit (nodeAt m cur).pfx key = r := by
          constructor <;> [skip; skip] <;> cases h <;> rfl
        rcases hcn with ⟨rfl, hr⟩
        exact ⟨h1, hr.symm, by rw [← hr]; exact hc, h2⟩
      · by_cases h3 : key <+: (nodeAt m c).pfx <;> simp [h2, h3] at h

theorem gdfi_newLeaf {T : Type} {m : PrefixMap T} {cur : Nat} {key : List Bool}
    {r : Bool} (h : getDirectionForInsert m cur key = .newLeaf r) :
    (nodeAt m cur).pfx ≠ key ∧ r = sideBit (nodeAt m cur).pfx key ∧
      childAt m cur r = none := by
  by_cases h1 : (nodeAt m cur).pfx = key
  · simp [getDirectionForInsert, h1] at h
  · simp only [getDirectionForInsert, h1, if_false] at h
    cases hc : childAt m cur (sideBit (nodeAt m cur).pfx key) with
    | none =>
      rw [hc] at h
      have hr : sideBit (nodeAt m cur).pfx key = r := by cases h; rfl
      exact ⟨h1, hr.symm, by rw [← hr]; exact hc⟩
    | some c =>
      rw [hc] at h
      by_cases h2 : (nodeAt m c).pfx <+: key
      · simp [h2] at h
      · by_cases h3 : key <+: (nodeAt m c).pfx <;> simp [h2, h3] at h

theorem gdfi_newChild {T : Type} {m : PrefixMap T} {cur : Nat} {key : List Bool}
    {r cr : Bool} (h : getDirectionForInsert m cur key = .newChild r cr) :
    (nodeAt m cur).pfx ≠ key ∧ r = sideBit (nodeAt m cur).pfx key ∧
      ∃ c, childAt m cur r = some c ∧ ¬ (nodeAt m c).pfx <+: key ∧
        key <+: (nodeAt m c).pfx ∧ cr = sideBit key (nodeAt m c).pfx := by
  by_cases h1 : (nodeAt m cur).pfx = key
  · simp [getDirectionForInsert, h1] at h
  · simp only [getDirectionForInsert, h1, if_false] at h
    cases hc : childAt m cur (sideBit (nodeAt m cur).pfx key) with
    | none => rw [hc] at h; simp at h
    | some c =>
      rw [hc] at h
      by_cases h2 : (nodeAt m c).pfx <+: key
      · simp [h2] at h
      · by_cases h3 : key <+: (nodeAt m c).pfx
        · simp only [h2, if_false, h3, if_true] at h
          have hrr : sideBit (nodeAt m cur).pfx key = r ∧ sideBit key (nodeAt m c).pfx = cr := by
            constructor <;> cases h <;> rfl
          exact ⟨h1, hrr.1.symm, c, by rw [← hrr.1]; exact hc, h2, h3, hrr.2.symm⟩
        · simp [h2, h3] at h

theorem gdfi_newBranch {T : Type} {m : PrefixMap T} {cur : Nat} {key : List Bool}
    {bp : List Bool} {r pr : Bool} (h : getDirectionForInsert m cur key = .newBranch bp r pr) :
    (nodeAt m cur).pfx ≠ key ∧ r = sideBit (nodeAt m cur).pfx key ∧
      ∃ c, childAt m cur r = some c ∧ ¬ (nodeAt m c).pfx <+: key ∧
        ¬ key <+: (nodeAt m c).pfx ∧ bp = lcp key (nodeAt m c).pfx ∧
        pr = sideBit bp key := by
  by_cases h1 : (nodeAt m cur).pfx = key
  · simp [getDirectionForInsert, h1] at h
  · simp only [getDirectionForInsert, h1, if_false] at h
    cases hc : childAt m cur (sideBit (nodeAt m cur).pfx key) with
    | none => rw [hc] at h; simp at h
    | some c =>
      rw [hc] at h
      by_cases h2 : (nodeAt m c).pfx <+: key
      · simp [h2] at h
      · by_cases h3 : key <+: (nodeAt m c).pfx
        · simp [h2, h3] at h
        · simp only [h2, if_false, h3] at h
          have hrr : lcp key (nodeAt m c).pfx = bp ∧ sideBit (nodeAt m cur).pfx key = r ∧
              sideBit (lcp key (nodeAt m c).pfx) key = pr := by
            refine ⟨?_, ?_, ?_⟩ <;> cases h <;> rfl
          refine ⟨h1, hrr.2.1.symm, c, by rw [← hrr.2.1]; exact hc, h2, h3, hrr.1.symm, ?_⟩
          rw [← hrr.1, ← hrr.2.2]

/-- Conditions a terminal walk direction certifies about the reached node; mirrors
the outcome table of spec section 4.2. -/
def TerminalSpec {T : Type} (m : PrefixMap T) (key : List Bool) (idx : Nat) :
    DirectionForInsert → Prop
  | .reached => (nodeAt m idx).pfx = key
  | .newLeaf r => (nodeAt m idx).pfx ≠ key ∧ r = sideBit (nodeAt m idx).pfx key ∧
      childAt m idx r = none
  | .newChild r cr => (nodeAt m idx).pfx ≠ key ∧ r = sideBit (nodeAt m idx).pfx key ∧
      ∃ c, childAt m idx r = some c ∧ ¬ (nodeAt m c).pfx <+: key ∧
        key <+: (nodeAt m c).pfx ∧ cr = sideBit key (nodeAt m c).pfx
  | .newBranch bp r pr => (nodeAt m idx).pfx ≠ key ∧ r = sideBit (nodeAt m idx).pfx key ∧
      ∃ c, childAt m idx r = some c ∧ ¬ (nodeAt m c).pfx <+: key ∧
        ¬ key <+: (nodeAt m c).pfx ∧ bp = lcp key (nodeAt m c).pfx ∧
        pr = sideBit bp key
  | .enter _ _ => False

/-! ### Walk lemmas -/

theorem entryGo_spec {T : Type} {m : PrefixMap T} (hE : edgesOK m) {key : List Bool} :
    ∀ (fuel cur idx : Nat) (d : DirectionForInsert),
      cur < m.table.length → (nodeAt m cur).pfx <+: key →
      entryGo m key cur fuel = some (idx, d) →
      idx < m.table.length ∧ (nodeAt m cur).pfx <+: (nodeAt m idx).pfx ∧
        (nodeAt m idx).pfx <+: key ∧ InSub m cur idx ∧ TerminalSpec m key idx d := by
  intro fuel
  induction fuel with
  | zero => intro cur idx d _ _ h; simp [entryGo] at h
  | succ f ih =>
    intro cur idx d hcur hpfx h
    rw [entryGo] at h
    cases hd : getDirectionForInsert m cur key with
    | enter nx r =>
      rw [hd] at h
      rcases gdfi_enter hd with ⟨_, _, hcc, hnx⟩
      rcases edge_facts hE hcc with ⟨hlt, hpp, _, _⟩
      rcases ih nx idx d hlt hnx h with ⟨h1, h2, h3, h4, h5⟩
      exact ⟨h1, hpp.trans h2, h3, .step _ hcc h4, h5⟩
    | reached =>
      rw [hd] at h
      simp only [Option.some.injEq, Prod.mk.injEq] at h
      rcases h with ⟨rfl, rfl⟩
      have he := gdfi_reached hd
      exact ⟨hcur, List.prefix_refl _, he ▸ List.prefix_refl _, .refl _, he⟩
    | newLeaf r =>
      rw [hd] at h
      simp only [Option.some.injEq, Prod.mk.injEq] at h
      rcases h with ⟨rfl, rfl⟩
      exact ⟨hcur, List.prefix_refl _, hpfx, .refl _, gdfi_newLeaf hd⟩
    | newChild r cr =>
      rw [hd] at h
      simp only [Option.some.injEq, Prod.mk.injEq] at h
      rcases h with ⟨rfl, rfl⟩
      exact ⟨hcur, List.prefix_refl _, hpfx, .refl _, gdfi_newChild hd⟩
    | newBranch bp r pr =>
      rw [hd] at h
      simp only [Option.some.injEq, Prod.mk.injEq] at h
      rcases h with ⟨rfl, rfl⟩
      exact ⟨hcur, List.prefix_refl _, hpfx, .refl _, gdfi_newBranch hd⟩

theorem entryGo_total {T : Type} {m : PrefixMap T} (hE : edgesOK m) {key : List Bool} :
    ∀ (fuel cur : Nat), cur < m.table.length → (nodeAt m cur).pfx <+: key →
      key.length + 1 ≤ fuel + (nodeAt m cur).pfx.length →
      ∃ idx d, entryGo m key cur fuel = some (idx, d) := by
  intro fuel
  induction fuel with
  | zero =>
    intro cur hcur hpfx hb
    exact absurd (Nat.le_trans hb (by simpa using hpfx.length_le))
      (by simp)
  | succ f ih =>
    intro cur hcur hpfx hb
    rw [entryGo]
    cases hd : getDirectionForInsert m cur key with
    | enter nx r =>
      rcases gdfi_enter hd with ⟨_, _, hcc, hnx⟩
      rcases edge_facts hE hcc with ⟨hlt, _, hll, _⟩
      exact ih nx hlt hnx (by omega)
    | reached => exact ⟨cur, .reached, rfl⟩
    | newLeaf r => exact ⟨cur, .newLeaf r, rfl⟩
    | newChild r cr => exact ⟨cur, .newChild r cr, rfl⟩
    | newBranch bp r pr => exact ⟨cur, .newBranch bp r pr, rfl⟩

theorem localize {T : Type} {m : PrefixMap T} (hE : edgesOK m) {a j : Nat} {t : List Bool}
    (hin : InSub m a j) (hne : (nodeAt m a).pfx ≠ t) (hjt : (nodeAt m j).pfx = t) :
    ∃ c, childAt m a (sideBit (nodeAt m a).pfx t) = some c ∧ InSub m c j := by
  cases hin with
  | refl => exact absurd hjt hne
  | step s hc hsub =>
    rcases edge_facts hE hc with ⟨_, _, hl, hbit⟩
    have hct : (nodeAt m _).pfx <+: t := hjt ▸ (inSub_pfx hE hsub).1
    have hside : sideBit (nodeAt m a).pfx t = s := by
      rw [sideBit, getD_of_extends hct hl, hbit]
    exact ⟨_, hside ▸ hc, hsub⟩

theorem walk_funnel {T : Type} {m : PrefixMap T} (hE : edgesOK m)
    {key t : List Bool} :
    ∀ (fuel cur idx : Nat) (d : DirectionForInsert) (j : Nat),
      cur < m.table.length → (nodeAt m cur).pfx <+: key →
      entryGo m key cur fuel = some (idx, d) →
      InSub m cur j → (nodeAt m j).pfx = t →
      (nodeAt m idx).pfx <+: t → (nodeAt m idx).pfx ≠ t →
      ∃ c, childAt m idx (sideBit (nodeAt m idx).pfx t) = some c ∧ InSub m c j := by
  intro fuel
  induction fuel with
  | zero => intro cur idx d j _ _ h; simp [entryGo] at h
  | succ f ih =>
    intro cur idx d j hcur hpfx h hin hjt hit hnt
    rw [entryGo] at h
    cases hd : getDirectionForInsert m cur key with
    | enter nx r =>
      rw [hd] at h
      rcases gdfi_enter hd with ⟨_, hr, hcc, hnx⟩
      rw [hr] at hcc
      rcases edge_facts hE hcc with ⟨hlt, hpp, hll, hbit⟩
      rcases entryGo_spec hE f nx idx d hlt hnx h with ⟨_, hxi, _, _, _⟩
      -- pfx cur strictly below pfx idx, which is strictly below t
      have hcurt : (nodeAt m cur).pfx <+: t := (hpp.trans hxi).trans hit
      have hcurnet : (nodeAt m cur).pfx ≠ t := by
        intro he
        have h1 : (nodeAt m cur).pfx.length < (nodeAt m idx).pfx.length :=
          Nat.lt_of_lt_of_le hll hxi.length_le
        have h2 : (nodeAt m idx).pfx.length < t.length := length_lt_of_prefix_ne hit hnt
        rw [he] at h1
        omega
      rcases localize hE hin hcurnet hjt with ⟨c', hc', hsub'⟩
      -- the localized side equals the walk side, so the localized child is nx
      have hsides : sideBit (nodeAt m cur).pfx t = sideBit (nodeAt m cur).pfx key := by
        have h1 : t.getD (nodeAt m cur).pfx.length false =
            (nodeAt m nx).pfx.getD (nodeAt m cur).pfx.length false :=
          getD_of_extends (hxi.trans hit) hll false
        have h2 : key.getD (nodeAt m cur).pfx.length false =
            (nodeAt m nx).pfx.getD (nodeAt m cur).pfx.length false :=
          getD_of_extends hnx hll false
        rw [sideBit, sideBit, h1, h2]
      have hc'nx : c' = nx := by
        rw [hsides] at hc'
        exact Option.some.inj (hc'.symm.trans hcc)
      rw [hc'nx] at hsub'
      exact ih nx idx d j hlt hnx h hsub' hjt hit hnt
    | reached =>
      rw [hd] at h
      simp only [Option.some.injEq, Prod.mk.injEq] at h
      rcases h with ⟨rfl, rfl⟩
      exact localize hE hin hnt hjt
    | newLeaf r =>
      rw [hd] at h
      simp only [Option.some.injEq, Prod.mk.injEq] at h
      rcases h with ⟨rfl, rfl⟩
      exact localize hE hin hnt hjt
    | newChild r cr =>
      rw [hd] at h
      simp only [Option.some.injEq, Prod.mk.injEq] at h
      rcases h with ⟨rfl, rfl⟩
      exact localize hE hin hnt hjt
    | newBranch bp r pr =>
      rw [hd] at h
      simp only [Option.some.injEq, Prod.mk.injEq] at h
      rcases h with ⟨rfl, rfl⟩
      exact localize hE hin hnt hjt

/-! ### The lookup walk as a fuel-free relation -/

/-- Fuel-free account of the lookup walk: Gets m key cur r holds when the walk
started at cur returns r. -/
inductive Gets {T : Type} (m : PrefixMap T) (key : List Bool) : Nat → Option T → Prop where
  | here {cur : Nat} : (nodeAt m cur).pfx = key → Gets m key cur (nodeAt m cur).value
  | down {cur c : Nat} {r : Option T} : (nodeAt m cur).pfx ≠ key →
      (nodeAt m cur).pfx <+: key →
      childAt m cur (sideBit (nodeAt m cur).pfx key) = some c →
      Gets m key c r → Gets m key cur r
  | stopLeaf {cur : Nat} : (nodeAt m cur).pfx ≠ key → (nodeAt m cur).pfx <+: key →
      childAt m cur (sideBit (nodeAt m cur).pfx key) = none → Gets m key cur none
  | stopDiv {cur : Nat} : ¬ (nodeAt m cur).pfx <+: key → Gets m key cur none

theorem gets_getGo {T : Type} {m : PrefixMap T} (hE : edgesOK m) {key : List Bool}
    {cur : Nat} {r : Option T} (hg : Gets m key cur r) :
    ∀ fuel, key.length + 1 ≤ fuel + (nodeAt m cur).pfx.length →
      getGo m key cur fuel = r := by
  induction hg with
  | here hp =>
    intro fuel hb
    cases fuel with
    | zero => rw [hp] at hb; omega
    | succ f => rw [getGo, if_pos hp]
  | down hne hpre hc _ ih =>
    intro fuel hb
    have hlt := length_lt_of_prefix_ne hpre hne
    cases fuel with
    | zero => omega
    | succ f =>
      rw [getGo]
      simp only [if_neg hne, if_pos hpre, hc]
      rcases edge_facts hE hc with ⟨_, _, hll, _⟩
      exact ih f (by omega)
  | stopLeaf hne hpre hc =>
    intro fuel hb
    have hlt := length_lt_of_prefix_ne hpre hne
    cases fuel with
    | zero => omega
    | succ f =>
      rw [getGo]
      simp only [if_neg hne, if_pos hpre, hc]
  | stopDiv hnp =>
    intro fuel hb
    cases fuel with
    | zero => rw [getGo]
    | succ f =>
      have hne : (nodeAt m _).pfx ≠ key := fun he => hnp (he ▸ List.prefix_refl _)
      rw [getGo]
      simp only [if_neg hne, if_neg hnp]

theorem getGo_gets {T : Type} {m : PrefixMap T} (hE : edgesOK m) {key : List Bool} :
    ∀ (fuel cur : Nat) (r : Option T),
      key.length + 1 ≤ fuel + (nodeAt m cur).pfx.length →
      getGo m key cur fuel = r → Gets m key cur r := by
  intro fuel
  induction fuel with
  | zero =>
    intro cur r hb hr
    have hlong : key.length < (nodeAt m cur).pfx.length := by omega
    have hnp : ¬ (nodeAt m cur).pfx <+: key := fun hp => by
      have := hp.length_le
      omega
    rw [getGo] at hr
    rw [← hr]
    exact .stopDiv hnp
  | succ f ih =>
    intro cur r hb hr
    rw [getGo] at hr
    by_cases h1 : (nodeAt m cur).pfx = key
    · rw [if_pos h1] at hr
      rw [← hr]
      exact .here h1
    · rw [if_neg h1] at hr
      by_cases h2 : (nodeAt m cur).pfx <+: key
      · rw [if_pos h2] at hr
        cases hc : childAt m cur (sideBit (nodeAt m cur).pfx key) with
        | none => rw [hc] at hr; rw [← hr]; exact .stopLeaf h1 h2 hc
        | some c =>
          rw [hc] at hr
          rcases edge_facts hE hc with ⟨_, _, hll, _⟩
          exact .down h1 h2 hc (ih c r (by omega) hr)
      · rw [if_neg h2] at hr
        rw [← hr]
        exact .stopDiv h2

/-- The top-level lookup agrees with the fuel-free walk relation. -/
theorem get_iff_gets {T : Type} {m : PrefixMap T} (hE : edgesOK m) {key : List Bool}
    {r : Option T} : m.get key = r ↔ Gets m key 0 r := by
  constructor
  · intro h
    exact getGo_gets hE (key.length + 1) 0 r (by omega) h
  · intro h
    exact gets_getGo hE h (key.length + 1) (by omega)

/-! ### Shape of the committed arena per direction case -/

theorem shape_reached {T : Type} (m : PrefixMap T) (key : List Bool) (idx : Nat) (v : T) :
    vacantInsert m key idx .reached v = some (setValue m idx (some v), idx) := rfl

theorem shape_newLeaf {T : Type} (m : PrefixMap T) (key : List Bool) (idx : Nat)
    (r : Bool) (v : T) (hidx : idx < m.table.length) :
    ∃ m', vacantInsert m key idx (.newLeaf r) v = some (m', m.table.length) ∧
      m'.table.length = m.table.length + 1 ∧
      (∀ j, j ≠ idx → j < m.table.length → nodeAt m' j = nodeAt m j) ∧
      (nodeAt m' idx).pfx = (nodeAt m idx).pfx ∧
      (nodeAt m' idx).value = (nodeAt m idx).value ∧
      (∀ t, childAt m' idx t = if t = r then some m.table.length else childAt m idx t) ∧
      (nodeAt m' m.table.length).pfx = key ∧
      (nodeAt m' m.table.length).value = some v ∧
      (∀ t, childAt m' m.table.length t = none) := by
  set n := m.table.length with hn
  have hm1 := nodeAt_new_node_lt m key (some v) hidx
  have hm1n := nodeAt_new_node_self m key (some v)
  have hlen1 : ((new_node m key (some v)).1).table.length = n + 1 := new_node_length m key (some v)
  have hidx1 : idx < ((new_node m key (some v)).1).table.length := by omega
  refine ⟨(set_child (new_node m key (some v)).1 idx n r).1, rfl, ?_, ?_, ?_, ?_, ?_, ?_, ?_, ?_⟩
  · rw [set_child_length]; exact hlen1
  · intro j hj hjn
    rw [nodeAt_set_child_ne _ _ _ _ hj]
    exact nodeAt_new_node_lt m key (some v) (by omega)
  · rw [pfx_set_child_self _ _ _ _ hidx1, hm1]
  · rw [value_set_child_self _ _ _ _ hidx1, hm1]
  · intro t
    rw [childAt_set_child_self _ _ _ _ hidx1 t, childAt_congr hm1 t]
  · have hne : n ≠ idx := by omega
    rw [nodeAt_set_child_ne _ _ _ _ hne, hm1n]
  · have hne : n ≠ idx := by omega
    rw [nodeAt_set_child_ne _ _ _ _ hne, hm1n]
  · intro t
    have hne : n ≠ idx := by omega
    have hnd : nodeAt (set_child (new_node m key (some v)).1 idx n r).1 n =
        ⟨key, some v, none, none⟩ := (nodeAt_set_child_ne _ _ _ _ hne).trans hm1n
    rw [childAt_eq_of_nodeAt hnd t]
    cases t <;> rfl

theorem shape_newChild {T : Type} (m : PrefixMap T) (key : List Bool) (idx : Nat)
    (r cr : Bool) (v : T) (c : Nat) (hidx : idx < m.table.length)
    (hc : childAt m idx r = some c) :
    ∃ m', vacantInsert m key idx (.newChild r cr) v = some (m', m.table.length) ∧
      m'.table.length = m.table.length + 1 ∧
      (∀ j, j ≠ idx → j < m.table.length → nodeAt m' j = nodeAt m j) ∧
      (nodeAt m' idx).pfx = (nodeAt m idx).pfx ∧
      (nodeAt m' idx).value = (nodeAt m idx).value ∧
      (∀ t, childAt m' idx t = if t = r then some m.table.length else childAt m idx t) ∧
      (nodeAt m' m.table.length).pfx = key ∧
      (nodeAt m' m.table.length).value = some v ∧
      (∀ t, childAt m' m.table.length t = if t = cr then some c else none) := by
  set n := m.table.length with hn
  have hm1 := nodeAt_new_node_lt m key (some v) hidx
  have hm1n := nodeAt_new_node_self m key (some v)
  have hlen1 : ((new_node m key (some v)).1).table.length = n + 1 := new_node_length m key (some v)
  have hidx1 : idx < ((new_node m key (some v)).1).table.length := by omega
  have hsnd : (set_child (new_node m key (some v)).1 idx (new_node m key (some v)).2 r).2 =
      some c := by
    rw [set_child_snd, childAt_congr hm1 r]
    exact hc
  have hveq : vacantInsert m key idx (.newChild r cr) v =
      some ((set_child (set_child (new_node m key (some v)).1 idx n r).1 n c cr).1, n) := by
    rw [vacantInsert]
    rw [hsnd]
    rfl
  set m2 := (set_child (new_node m key (some v)).1 idx n r).1 with hm2
  have hlen2 : m2.table.length = n + 1 := by rw [hm2, set_child_length]; exact hlen1
  have hnidx : n ≠ idx := by omega
  have hn2 : n < m2.table.length := by omega
  have hm2n : nodeAt m2 n = ⟨key, some v, none, none⟩ := by
    rw [hm2, nodeAt_set_child_ne _ _ _ _ hnidx, hm1n]
  refine ⟨(set_child m2 n c cr).1, hveq, ?_, ?_, ?_, ?_, ?_, ?_, ?_, ?_⟩
  · rw [set_child_length]; exact hlen2
  · intro j hj hjn
    have hjn' : j ≠ n := by omega
    rw [nodeAt_set_child_ne _ _ _ _ hjn', hm2, nodeAt_set_child_ne _ _ _ _ hj]
    exact nodeAt_new_node_lt m key (some v) (by omega)
  · have hidxn : idx ≠ n := by omega
    rw [nodeAt_set_child_ne _ _ _ _ hidxn, hm2, pfx_set_child_self _ _ _ _ hidx1, hm1]
  · have hidxn : idx ≠ n := by omega
    rw [nodeAt_set_child_ne _ _ _ _ hidxn, hm2, value_set_child_self _ _ _ _ hidx1, hm1]
  · intro t
    have hidxn : idx ≠ n := by omega
    rw [childAt_congr (nodeAt_set_child_ne _ _ _ _ hidxn) t, hm2,
      childAt_set_child_self _ _ _ _ hidx1 t, childAt_congr hm1 t]
  · rw [pfx_set_child_self _ _ _ _ hn2, hm2n]
  · rw [value_set_child_self _ _ _ _ hn2, hm2n]
  · intro t
    rw [childAt_set_child_self _ _ _ _ hn2 t]
    have hmc : childAt m2 n t = none := by
      rw [childAt_eq_of_nodeAt hm2n t]; cases t <;> rfl
    rw [hmc]

theorem shape_newBranch {T : Type} (m : PrefixMap T) (key bp : List Bool) (idx : Nat)
    (r pr : Bool) (v : T) (c : Nat) (hidx : idx < m.table.length)
    (hc : childAt m idx r = some c) :
    ∃ m', vacantInsert m key idx (.newBranch bp r pr) v = some (m', m.table.length + 1) ∧
      m'.table.length = m.table.length + 2 ∧
      (∀ j, j ≠ idx → j < m.table.length → nodeAt m' j = nodeAt m j) ∧
      (nodeAt m' idx).pfx = (nodeAt m idx).pfx ∧
      (nodeAt m' idx).value = (nodeAt m idx).value ∧
      (∀ t, childAt m' idx t = if t = r then some m.table.length else childAt m idx t) ∧
      (nodeAt m' m.table.length).pfx = bp ∧
      (nodeAt m' m.table.length).value = none ∧
      (∀ t, childAt m' m.table.length t =
        if t = pr then some (m.table.length + 1) else some c) ∧
      (nodeAt m' (m.table.length + 1)).pfx = key ∧
      (nodeAt m' (m.table.length + 1)).value = some v ∧
      (∀ t, childAt m' (m.table.length + 1) t = none) := by
  set n := m.table.length with hn
  set m1 := (new_node m bp none).1 with hm1def
  set m2 := (new_node m1 key (some v)).1 with hm2def
  have hlen1 : m1.table.length = n + 1 := new_node_length m bp none
  have hlen2 : m2.table.length = n + 2 := by
    rw [hm2def, new_node_length, hlen1]
  have hm1lt := fun {j : Nat} (hj : j < n) => nodeAt_new_node_lt m bp none (j := j) hj
  have hm2lt : ∀ {j : Nat}, j < n + 1 → nodeAt m2 j = nodeAt m1 j := by
    intro j hj
    rw [hm2def]
    exact nodeAt_new_node_lt m1 key (some v) (by omega)
  have hm1n : nodeAt m1 n = ⟨bp, none, none, none⟩ := nodeAt_new_node_self m bp none
  have hm2n1 : nodeAt m2 (n + 1) = ⟨key, some v, none, none⟩ := by
    rw [hm2def]
    have := nodeAt_new_node_self m1 key (some v)
    rw [hlen1] at this
    exact this
  have hm2idx : nodeAt m2 idx = nodeAt m idx := (hm2lt (by omega)).trans (hm1lt hidx)
  have hidx2 : idx < m2.table.length := by omega
  -- the displaced child is read off the untouched slot of idx
  have hsnd : (set_child m2 idx (new_node m bp none).2 r).2 = some c := by
    rw [set_child_snd, childAt_congr hm2idx r]
    exact hc
  set nn := (new_node m1 key (some v)).2 with hnndef
  have hnn : nn = n + 1 := hlen1
  set m3 := (set_child m2 idx n r).1 with hm3def
  have hlen3 : m3.table.length = n + 2 := by rw [hm3def, set_child_length]; exact hlen2
  have hm3n : nodeAt m3 n = ⟨bp, none, none, none⟩ := by
    rw [hm3def, nodeAt_set_child_ne _ _ _ _ (by omega : n ≠ idx), hm2lt (by omega), hm1n]
  have hm3n1 : nodeAt m3 (n + 1) = ⟨key, some v, none, none⟩ := by
    rw [hm3def, nodeAt_set_child_ne _ _ _ _ (by omega : n + 1 ≠ idx), hm2n1]
  set m4 := (set_child m3 n nn pr).1 with hm4def
  have hlen4 : m4.table.length = n + 2 := by rw [hm4def, set_child_length]; exact hlen3
  have hn3 : n < m3.table.length := by omega
  have hn4 : n < m4.table.length := by omega
  set m5 := (set_child m4 n c (!pr)).1 with hm5def
  have hveq : vacantInsert m key idx (.newBranch bp r pr) v = some (m5, n + 1) := by
    rw [← hnn]
    rw [vacantInsert]
    rw [hsnd]
    rfl
  have hm4n1 : nodeAt m4 (n + 1) = ⟨key, some v, none, none⟩ := by
    rw [hm4def, nodeAt_set_child_ne _ _ _ _ (by omega : n + 1 ≠ n), hm3n1]
  have hm5n1 : nodeAt m5 (n + 1) = ⟨key, some v, none, none⟩ := by
    rw [hm5def, nodeAt_set_child_ne _ _ _ _ (by omega : n + 1 ≠ n), hm4n1]
  have hm4idx : nodeAt m4 idx = nodeAt m3 idx := by
    rw [hm4def, nodeAt_set_child_ne _ _ _ _ (by omega : idx ≠ n)]
  have hm5idx : nodeAt m5 idx = nodeAt m3 idx := by
    rw [hm5def, nodeAt_set_child_ne _ _ _ _ (by omega : idx ≠ n), hm4idx]
  refine ⟨m5, hveq, ?_, ?_, ?_, ?_, ?_, ?_, ?_, ?_, ?_, ?_, ?_⟩
  · rw [hm5def, set_child_length]; exact hlen4
  · intro j hj hjn
    rw [hm5def, nodeAt_set_child_ne _ _ _ _ (by omega : j ≠ n), hm4def,
      nodeAt_set_child_ne _ _ _ _ (by omega : j ≠ n), hm3def,
      nodeAt_set_child_ne _ _ _ _ hj, hm2lt (by omega), hm1lt hjn]
  · rw [hm5idx, hm3def, pfx_set_child_self _ _ _ _ hidx2, (congrArg Node.pfx hm2idx)]
  · rw [hm5idx, hm3def, value_set_child_self _ _ _ _ hidx2, (congrArg Node.value hm2idx)]
  · intro t
    rw [childAt_congr hm5idx t, hm3def, childAt_set_child_self _ _ _ _ hidx2 t,
      childAt_congr hm2idx t]
  · rw [hm5def, pfx_set_child_self _ _ _ _ hn4, hm4def, pfx_set_child_self _ _ _ _ hn3,
      (congrArg Node.pfx hm3n)]
  · rw [hm5def, value_set_child_self _ _ _ _ hn4, hm4def, value_set_child_self _ _ _ _ hn3,
      (congrArg Node.value hm3n)]
  · intro t
    rw [hm5def, childAt_set_child_self _ _ _ _ hn4 t, hm4def,
      childAt_set_child_self _ _ _ _ hn3 t]
    have hb : childAt m3 n t = none := by
      rw [childAt_eq_of_nodeAt hm3n t]; cases t <;> rfl
    rw [hb, hnn]
    cases pr <;> cases t <;> simp
  · rw [(congrArg Node.pfx hm5n1)]
  · rw [(congrArg Node.value hm5n1)]
  · intro t
    rw [childAt_eq_of_nodeAt hm5n1 t]
    cases t <;> rfl

/-! ### Preservation of well-formedness by the commit path -/

theorem edgeOK_intro {T : Type} {m : PrefixMap T} {i : Nat} {s : Bool}
    (h : ∀ c, childAt m i s = some c → c < m.table.length ∧
      (nodeAt m i).pfx <+: (nodeAt m c).pfx ∧
      (nodeAt m i).pfx.length < (nodeAt m c).pfx.length ∧
      (nodeAt m c).pfx.getD (nodeAt m i).pfx.length false = s) : edgeOK m i s := by
  rw [edgeOK]
  cases hc : childAt m i s with
  | none => trivial
  | some c => exact h c hc

theorem inSub_mono {T : Type} {m m' : PrefixMap T}
    (h : ∀ i s c, childAt m i s = some c → InSub m' i c) :
    ∀ {a b : Nat}, InSub m a b → InSub m' a b := by
  intro a b hab
  induction hab with
  | refl => exact .refl _
  | step s hc _ ih => exact (h _ _ _ hc).trans ih

theorem bool_eq_not_of_ne {a b : Bool} (h : a ≠ b) : a = !b := by
  cases a <;> cases b <;> simp_all

theorem wf_setValue {T : Type} {m : PrefixMap T} (hW : WF m) (i : Nat) (w : Option T) :
    WF (setValue m i w) := by
  obtain ⟨h0, hroot, hE, hreach, hdist⟩ := hW
  refine ⟨by rw [setValue_length]; exact h0, by rw [pfx_setValue]; exact hroot, ?_, ?_, ?_⟩
  · intro j hj s
    refine edgeOK_intro ?_
    intro c hc
    rw [childAt_setValue] at hc
    rcases edge_facts hE hc with ⟨h1, h2, h3, h4⟩
    rw [setValue_length, pfx_setValue, pfx_setValue]
    exact ⟨h1, h2, h3, h4⟩
  · intro j hj
    rw [setValue_length] at hj
    refine inSub_mono ?_ (hreach j hj)
    intro i s c hc
    exact .step s (by rw [childAt_setValue]; exact hc) (.refl _)
  · intro i j hi hj hp
    rw [setValue_length] at hi hj
    rw [pfx_setValue, pfx_setValue] at hp
    exact hdist i j hi hj hp

/-- Well-formedness is preserved by a NewLeaf-shaped patch of the arena. -/
theorem wf_patch_newLeaf {T : Type} {m m' : PrefixMap T} {key : List Bool} {idx : Nat}
    {r : Bool} (hW : WF m) (hidx : idx < m.table.length)
    (hpk : (nodeAt m idx).pfx <+: key) (hne : (nodeAt m idx).pfx ≠ key)
    (hr : r = sideBit (nodeAt m idx).pfx key)
    (hnochild : childAt m idx r = none)
    (hin0 : InSub m 0 idx)
    (habs : ∀ j, j < m.table.length → (nodeAt m j).pfx ≠ key)
    (hlen : m'.table.length = m.table.length + 1)
    (hframe : ∀ j, j ≠ idx → j < m.table.length → nodeAt m' j = nodeAt m j)
    (hpfxidx : (nodeAt m' idx).pfx = (nodeAt m idx).pfx)
    (hchild : ∀ t, childAt m' idx t = if t = r then some m.table.length else childAt m idx t)
    (hnpfx : (nodeAt m' m.table.length).pfx = key)
    (hnchild : ∀ t, childAt m' m.table.length t = none) :
    WF m' := by
  obtain ⟨h0, hroot, hE, hreach, hdist⟩ := hW
  have hpfx : ∀ j, j < m.table.length → (nodeAt m' j).pfx = (nodeAt m j).pfx := by
    intro j hj
    by_cases hji : j = idx
    · rw [hji, hpfxidx]
    · rw [hframe j hji hj]
  have hchildeq : ∀ i s, i < m.table.length → (i = idx → s ≠ r) →
      childAt m' i s = childAt m i s := by
    intro i s hi hir
    by_cases hii : i = idx
    · subst hii
      rw [hchild s, if_neg (hir rfl)]
    · exact childAt_congr (hframe i hii hi) s
  refine ⟨by omega, ?_, ?_, ?_, ?_⟩
  · rw [hpfx 0 h0]; exact hroot
  · intro i hi s
    rw [hlen] at hi
    refine edgeOK_intro ?_
    intro c hc
    by_cases hii : i = idx
    · subst hii
      rw [hchild s] at hc
      by_cases hsr : s = r
      · rw [if_pos hsr] at hc
        have hcn : c = m.table.length := Option.some.inj hc.symm
        subst hcn
        rw [hpfxidx, hnpfx, hlen, hsr, hr]
        exact ⟨by omega, hpk, length_lt_of_prefix_ne hpk hne, rfl⟩
      · rw [if_neg hsr] at hc
        rcases edge_facts hE hc with ⟨h1, h2, h3, h4⟩
        rw [hpfxidx, hpfx c h1, hlen]
        exact ⟨by omega, h2, h3, h4⟩
    · by_cases hin : i = m.table.length
      · subst hin
        rw [hnchild s] at hc
        cases hc
      · have hilt : i < m.table.length := by omega
        rw [childAt_congr (hframe i hii hilt) s] at hc
        rcases edge_facts hE hc with ⟨h1, h2, h3, h4⟩
        rw [hframe i hii hilt, hpfx c h1, hlen]
        exact ⟨by omega, h2, h3, h4⟩
  · have hmono : ∀ {a b : Nat}, InSub m a b → InSub m' a b := by
      refine inSub_mono ?_
      intro i s c hc
      have hi : i < m.table.length := childAt_some_lt hc
      have hsr : i = idx → s ≠ r := by
        intro hii hsr
        rw [hii, hsr, hnochild] at hc
        cases hc
      exact .step s (by rw [hchildeq i s hi hsr]; exact hc) (.refl _)
    intro j hj
    rw [hlen] at hj
    by_cases hjn : j = m.table.length
    · subst hjn
      refine (hmono hin0).trans (.step r ?_ (.refl _))
      rw [hchild r, if_pos rfl]
    · exact hmono (hreach j (by omega))
  · intro i j hi hj hp
    rw [hlen] at hi hj
    by_cases hin : i = m.table.length <;> by_cases hjn : j = m.table.length
    · rw [hin, hjn]
    · exfalso
      rw [hin, hnpfx] at hp
      exact habs j (by omega) (hpfx j (by omega) ▸ hp.symm)
    · exfalso
      rw [hjn, hnpfx] at hp
      exact habs i (by omega) (hpfx i (by omega) ▸ hp)
    · have hi' : i < m.table.length := by omega
      have hj' : j < m.table.length := by omega
      rw [hpfx i hi', hpfx j hj'] at hp
      exact hdist i j hi' hj' hp

/-- Well-formedness is preserved by a NewChild-shaped patch of the arena. -/
theorem wf_patch_newChild {T : Type} {m m' : PrefixMap T} {key : List Bool} {idx c : Nat}
    {r cr : Bool} (hW : WF m) (hidx : idx < m.table.length)
    (hpk : (nodeAt m idx).pfx <+: key) (hne : (nodeAt m idx).pfx ≠ key)
    (hr : r = sideBit (nodeAt m idx).pfx key)
    (hcold : childAt m idx r = some c)
    (hckey : ¬ (nodeAt m c).pfx <+: key) (hkeyc : key <+: (nodeAt m c).pfx)
    (hcr : cr = sideBit key (nodeAt m c).pfx)
    (hin0 : InSub m 0 idx)
    (habs : ∀ j, j < m.table.length → (nodeAt m j).pfx ≠ key)
    (hlen : m'.table.length = m.table.length + 1)
    (hframe : ∀ j, j ≠ idx → j < m.table.length → nodeAt m' j = nodeAt m j)
    (hpfxidx : (nodeAt m' idx).pfx = (nodeAt m idx).pfx)
    (hchild : ∀ t, childAt m' idx t = if t = r then some m.table.length else childAt m idx t)
    (hnpfx : (nodeAt m' m.table.length).pfx = key)
    (hnchild : ∀ t, childAt m' m.table.length t = if t = cr then some c else none) :
    WF m' := by
  obtain ⟨h0, hroot, hE, hreach, hdist⟩ := hW
  have hclt : c < m.table.length := (edge_facts hE hcold).1
  have hkeyne : key ≠ (nodeAt m c).pfx := fun he => hckey (he ▸ List.prefix_refl _)
  have hpfx : ∀ j, j < m.table.length → (nodeAt m' j).pfx = (nodeAt m j).pfx := by
    intro j hj
    by_cases hji : j = idx
    · rw [hji, hpfxidx]
    · rw [hframe j hji hj]
  refine ⟨by omega, ?_, ?_, ?_, ?_⟩
  · rw [hpfx 0 h0]; exact hroot
  · intro i hi s
    rw [hlen] at hi
    refine edgeOK_intro ?_
    intro c0 hc0
    by_cases hii : i = idx
    · subst hii
      rw [hchild s] at hc0
      by_cases hsr : s = r
      · rw [if_pos hsr] at hc0
        have hcn : c0 = m.table.length := Option.some.inj hc0.symm
        subst hcn
        rw [hpfxidx, hnpfx, hlen, hsr, hr]
        exact ⟨by omega, hpk, length_lt_of_prefix_ne hpk hne, rfl⟩
      · rw [if_neg hsr] at hc0
        rcases edge_facts hE hc0 with ⟨h1, h2, h3, h4⟩
        rw [hpfxidx, hpfx c0 h1, hlen]
        exact ⟨by omega, h2, h3, h4⟩
    · by_cases hin : i = m.table.length
      · subst hin
        rw [hnchild s] at hc0
        by_cases hscr : s = cr
        · rw [if_pos hscr] at hc0
          have hcc : c0 = c := Option.some.inj hc0.symm
          subst hcc
          rw [hnpfx, hpfx c0 hclt, hlen, hscr, hcr]
          exact ⟨by omega, hkeyc, length_lt_of_prefix_ne hkeyc hkeyne, rfl⟩
        · rw [if_neg hscr] at hc0
          cases hc0
      · have hilt : i < m.table.length := by omega
        rw [childAt_congr (hframe i hii hilt) s] at hc0
        rcases edge_facts hE hc0 with ⟨h1, h2, h3, h4⟩
        rw [hframe i hii hilt, hpfx c0 h1, hlen]
        exact ⟨by omega, h2, h3, h4⟩
  · have hmono : ∀ {a b : Nat}, InSub m a b → InSub m' a b := by
      refine inSub_mono ?_
      intro i s c0 hc0
      have hi : i < m.table.length := childAt_some_lt hc0
      by_cases hii : i = idx
      · subst hii
        by_cases hsr : s = r
        · rw [hsr, hcold] at hc0
          have hcc : c0 = c := Option.some.inj hc0.symm
          subst hcc
          refine .step r (by rw [hchild r, if_pos rfl]) (.step cr ?_ (.refl _))
          rw [hnchild cr, if_pos rfl]
        · exact .step s (by rw [hchild s, if_neg hsr]; exact hc0) (.refl _)
      · exact .step s (by rw [childAt_congr (hframe i hii hi) s]; exact hc0) (.refl _)
    intro j hj
    rw [hlen] at hj
    by_cases hjn : j = m.table.length
    · subst hjn
      refine (hmono hin0).trans (.step r ?_ (.refl _))
      rw [hchild r, if_pos rfl]
    · exact hmono (hreach j (by omega))
  · intro i j hi hj hp
    rw [hlen] at hi hj
    by_cases hin : i = m.table.length <;> by_cases hjn : j = m.table.length
    · rw [hin, hjn]
    · exfalso
      rw [hin, hnpfx] at hp
      exact habs j (by omega) (hpfx j (by omega) ▸ hp.symm)
    · exfalso
      rw [hjn, hnpfx] at hp
      exact habs i (by omega) (hpfx i (by omega) ▸ hp)
    · have hi' : i < m.table.length := by omega
      have hj' : j < m.table.length := by omega
      rw [hpfx i hi', hpfx j hj'] at hp
      exact hdist i j hi' hj' hp

/-- Well-formedness is preserved by a NewBranch-shaped patch of the arena. -/
theorem wf_patch_newBranch {T : Type} {m m' : PrefixMap T} {key bp : List Bool}
    {idx c : Nat} {r pr : Bool} (hW : WF m) (hidx : idx < m.table.length)
    (hpk : (nodeAt m idx).pfx <+: key) (hne : (nodeAt m idx).pfx ≠ key)
    (hr : r = sideBit (nodeAt m idx).pfx key)
    (hcold : childAt m idx r = some c)
    (hckey : ¬ (nodeAt m c).pfx <+: key) (hkeyc : ¬ key <+: (nodeAt m c).pfx)
    (hbp : bp = lcp key (nodeAt m c).pfx)
    (hpr : pr = sideBit bp key)
    (hin0 : InSub m 0 idx)
    (habs : ∀ j, j < m.table.length → (nodeAt m j).pfx ≠ key)
    (habsbp : ∀ j, j < m.table.length → (nodeAt m j).pfx ≠ bp)
    (hlen : m'.table.length = m.table.length + 2)
    (hframe : ∀ j, j ≠ idx → j < m.table.length → nodeAt m' j = nodeAt m j)
    (hpfxidx : (nodeAt m' idx).pfx = (nodeAt m idx).pfx)
    (hchild : ∀ t, childAt m' idx t = if t = r then some m.table.length else childAt m idx t)
    (hbpfx : (nodeAt m' m.table.length).pfx = bp)
    (hbchild : ∀ t, childAt m' m.table.length t =
      if t = pr then some (m.table.length + 1) else some c)
    (hnpfx : (nodeAt m' (m.table.length + 1)).pfx = key)
    (hnchild : ∀ t, childAt m' (m.table.length + 1) t = none) :
    WF m' := by
  obtain ⟨h0, hroot, hE, hreach, hdist⟩ := hW
  rcases edge_facts hE hcold with ⟨hclt, hic, hicl, hbit⟩
  have hdiv := lcp_diverge key (nodeAt m c).pfx hkeyc hckey
  have hbpk : bp <+: key := hbp ▸ lcp_prefix_left key (nodeAt m c).pfx
  have hbpc : bp <+: (nodeAt m c).pfx := hbp ▸ lcp_prefix_right key (nodeAt m c).pfx
  have hbpkl : bp.length < key.length := by rw [hbp]; exact hdiv.1
  have hbpcl : bp.length < (nodeAt m c).pfx.length := by rw [hbp]; exact hdiv.2.1
  have hdivbit : key.getD bp.length false ≠ (nodeAt m c).pfx.getD bp.length false := by
    rw [hbp]; exact hdiv.2.2
  have hidxbp : (nodeAt m idx).pfx <+: bp := hbp ▸ prefix_lcp _ _ _ hpk hic
  have hrbit : key.getD (nodeAt m idx).pfx.length false = r := by rw [hr]; rfl
  have hprbit : key.getD bp.length false = pr := by rw [hpr]; rfl
  have hidxbplt : (nodeAt m idx).pfx.length < bp.length := by
    rcases Nat.lt_or_ge (nodeAt m idx).pfx.length bp.length with hlt | hge
    · exact hlt
    · exfalso
      have hpeq : (nodeAt m idx).pfx = bp :=
        hidxbp.eq_of_length (Nat.le_antisymm hidxbp.length_le hge)
      apply hdivbit
      rw [← hpeq, hrbit, hbit]
  have hbpbit : bp.getD (nodeAt m idx).pfx.length false = r := by
    have h1 : key.getD (nodeAt m idx).pfx.length false =
        bp.getD (nodeAt m idx).pfx.length false := getD_of_extends hbpk hidxbplt false
    rw [← h1, hrbit]
  have hcbit : (nodeAt m c).pfx.getD bp.length false = !pr := by
    refine bool_eq_not_of_ne ?_
    intro he
    exact hdivbit (by rw [he, hprbit])
  have hbpnekey : bp ≠ key := fun he => by rw [he] at hbpkl; omega
  have hpfx : ∀ j, j < m.table.length → (nodeAt m' j).pfx = (nodeAt m j).pfx := by
    intro j hj
    by_cases hji : j = idx
    · rw [hji, hpfxidx]
    · rw [hframe j hji hj]
  refine ⟨by omega, ?_, ?_, ?_, ?_⟩
  · rw [hpfx 0 h0]; exact hroot
  · intro i hi s
    rw [hlen] at hi
    refine edgeOK_intro ?_
    intro c0 hc0
    by_cases hii : i = idx
    · subst hii
      rw [hchild s] at hc0
      by_cases hsr : s = r
      · rw [if_pos hsr] at hc0
        have hcn : c0 = m.table.length := Option.some.inj hc0.symm
        subst hcn
        rw [hpfxidx, hbpfx, hlen, hsr]
        exact ⟨by omega, hidxbp, hidxbplt, hbpbit⟩
      · rw [if_neg hsr] at hc0
        rcases edge_facts hE hc0 with ⟨h1, h2, h3, h4⟩
        rw [hpfxidx, hpfx c0 h1, hlen]
        exact ⟨by omega, h2, h3, h4⟩
    · by_cases hib : i = m.table.length
      · subst hib
        rw [hbchild s] at hc0
        by_cases hspr : s = pr
        · rw [if_pos hspr] at hc0
          have hcn : c0 = m.table.length + 1 := Option.some.inj hc0.symm
          subst hcn
          rw [hbpfx, hnpfx, hlen, hspr]
          exact ⟨by omega, hbpk, hbpkl, hpr.symm⟩
        · rw [if_neg hspr] at hc0
          have hcn : c0 = c := Option.some.inj hc0.symm
          subst hcn
          rw [hbpfx, hpfx c0 hclt, hlen]
          refine ⟨by omega, hbpc, hbpcl, ?_⟩
          rw [hcbit, bool_eq_not_of_ne hspr]
      · by_cases hin : i = m.table.length + 1
        · subst hin
          rw [hnchild s] at hc0
          cases hc0
        · have hilt : i < m.table.length := by omega
          rw [childAt_congr (hframe i hii hilt) s] at hc0
          rcases edge_facts hE hc0 with ⟨h1, h2, h3, h4⟩
          rw [hframe i hii hilt, hpfx c0 h1, hlen]
          exact ⟨by omega, h2, h3, h4⟩
  · have hmono : ∀ {a b : Nat}, InSub m a b → InSub m' a b := by
      refine inSub_mono ?_
      intro i s c0 hc0
      have hi : i < m.table.length := childAt_some_lt hc0
      by_cases hii : i = idx
      · subst hii
        by_cases hsr : s = r
        · rw [hsr, hcold] at hc0
          have hcc : c0 = c := Option.some.inj hc0.symm
          subst hcc
          refine .step r (by rw [hchild r, if_pos rfl]) (.step (!pr) ?_ (.refl _))
          rw [hbchild (!pr), if_neg (by simp)]
        · exact .step s (by rw [hchild s, if_neg hsr]; exact hc0) (.refl _)
      · exact .step s (by rw [childAt_congr (hframe i hii hi) s]; exact hc0) (.refl _)
    intro j hj
    rw [hlen] at hj
    by_cases hjb : j = m.table.length
    · subst hjb
      refine (hmono hin0).trans (.step r ?_ (.refl _))
      rw [hchild r, if_pos rfl]
    · by_cases hjn : j = m.table.length + 1
      · subst hjn
        have s1 : InSub m' idx m.table.length :=
          .step r (by rw [hchild r, if_pos rfl]) (.refl _)
        have s2 : InSub m' m.table.length (m.table.length + 1) :=
          .step pr (by rw [hbchild pr, if_pos rfl]) (.refl _)
        exact (hmono hin0).trans (s1.trans s2)
      · exact hmono (hreach j (by omega))
  · intro i j hi hj hp
    rw [hlen] at hi hj
    have hcase : ∀ k, k < m.table.length + 2 → k = m.table.length ∨
        k = m.table.length + 1 ∨ k < m.table.length := by omega
    rcases hcase i hi with hib | hin | hilt <;> rcases hcase j hj with hjb | hjn | hjlt
    · rw [hib, hjb]
    · exfalso
      rw [hib, hjn, hbpfx, hnpfx] at hp
      exact hbpnekey hp
    · exfalso
      rw [hib, hbpfx] at hp
      exact habsbp j hjlt (hpfx j hjlt ▸ hp.symm)
    · exfalso
      rw [hin, hjb, hbpfx, hnpfx] at hp
      exact hbpnekey hp.symm
    · rw [hin, hjn]
    · exfalso
      rw [hin, hnpfx] at hp
      exact habs j hjlt (hpfx j hjlt ▸ hp.symm)
    · exfalso
      rw [hjb, hbpfx] at hp
      exact habsbp i hilt (hpfx i hilt ▸ hp)
    · exfalso
      rw [hjn, hnpfx] at hp
      exact habs i hilt (hpfx i hilt ▸ hp)
    · rw [hpfx i hilt, hpfx j hjlt] at hp
      exact hdist i j hilt hjlt hp

/-! ### Absence of the inserted prefixes in the arena at commit time -/

theorem entry_walk_total {T : Type} {m : PrefixMap T} (hW : WF m) (key : List Bool) :
    ∃ idx d, entryGo m key 0 (key.length + 1) = some (idx, d) := by
  obtain ⟨h0, hroot, hE, _, _⟩ := hW
  exact entryGo_total hE (key.length + 1) 0 h0
    (by rw [hroot]; exact List.nil_prefix) (by rw [hroot]; simp)

theorem walk_terminal_spec {T : Type} {m : PrefixMap T} (hW : WF m) {key : List Bool}
    {idx : Nat} {d : DirectionForInsert}
    (hwalk : entryGo m key 0 (key.length + 1) = some (idx, d)) :
    idx < m.table.length ∧ (nodeAt m idx).pfx <+: key ∧ InSub m 0 idx ∧
      TerminalSpec m key idx d := by
  obtain ⟨h0, hroot, hE, _, _⟩ := hW
  rcases entryGo_spec hE (key.length + 1) 0 idx d h0
    (by rw [hroot]; exact List.nil_prefix) hwalk with ⟨h1, _, h3, h4, h5⟩
  exact ⟨h1, h3, h4, h5⟩

theorem absent_key {T : Type} {m : PrefixMap T} (hW : WF m) {key : List Bool}
    {idx : Nat} {d : DirectionForInsert}
    (hwalk : entryGo m key 0 (key.length + 1) = some (idx, d))
    (hd : d ≠ .reached) (hd2 : ∀ nx r, d ≠ .enter nx r) :
    ∀ j, j < m.table.length → (nodeAt m j).pfx ≠ key := by
  rcases walk_terminal_spec hW hwalk with ⟨hidx, hik, hins, hts⟩
  obtain ⟨h0, hroot, hE, hreach, hdist⟩ := hW
  intro j hj hpj
  have hroot0 : (nodeAt m 0).pfx <+: key := by rw [hroot]; exact List.nil_prefix
  cases d with
  | reached => exact hd rfl
  | enter nx r => exact hd2 nx r rfl
  | newLeaf r =>
    rcases hts with ⟨hne, hr, hnochild⟩
    rcases walk_funnel hE (key.length + 1) 0 idx _ j h0 hroot0 hwalk
      (hreach j hj) hpj hik hne with ⟨c', hc', _⟩
    rw [← hr, hnochild] at hc'
    cases hc'
  | newChild r cr =>
    rcases hts with ⟨hne, hr, c, hc, hckey, _, _⟩
    rcases walk_funnel hE (key.length + 1) 0 idx _ j h0 hroot0 hwalk
      (hreach j hj) hpj hik hne with ⟨c', hc', hsub'⟩
    rw [← hr, hc] at hc'
    have hcc : c = c' := Option.some.inj hc'.symm |>.symm
    subst hcc
    exact hckey (hpj ▸ (inSub_pfx hE hsub').1)
  | newBranch bp r pr =>
    rcases hts with ⟨hne, hr, c, hc, hckey, _, _, _⟩
    rcases walk_funnel hE (key.length + 1) 0 idx _ j h0 hroot0 hwalk
      (hreach j hj) hpj hik hne with ⟨c', hc', hsub'⟩
    rw [← hr, hc] at hc'
    have hcc : c = c' := Option.some.inj hc'.symm |>.symm
    subst hcc
    exact hckey (hpj ▸ (inSub_pfx hE hsub').1)

theorem absent_branchPfx {T : Type} {m : PrefixMap T} (hW : WF m) {key bp : List Bool}
    {idx : Nat} {r pr : Bool}
    (hwalk : entryGo m key 0 (key.length + 1) = some (idx, .newBranch bp r pr)) :
    ∀ j, j < m.table.length → (nodeAt m j).pfx ≠ bp := by
  rcases walk_terminal_spec hW hwalk with ⟨hidx, hik, hins, hts⟩
  obtain ⟨h0, hroot, hE, hreach, hdist⟩ := hW
  rcases hts with ⟨hne, hr, c, hc, hckey, hkeyc, hbp, hpr⟩
  rcases edge_facts hE hc with ⟨hclt, hic, hicl, hbit⟩
  have hdiv := lcp_diverge key (nodeAt m c).pfx hkeyc hckey
  have hbpk : bp <+: key := hbp ▸ lcp_prefix_left key (nodeAt m c).pfx
  have hbpcl : bp.length < (nodeAt m c).pfx.length := by rw [hbp]; exact hdiv.2.1
  have hdivbit : key.getD bp.length false ≠ (nodeAt m c).pfx.getD bp.length false := by
    rw [hbp]; exact hdiv.2.2
  have hidxbp : (nodeAt m idx).pfx <+: bp := hbp ▸ prefix_lcp _ _ _ hik hic
  have hrbit : key.getD (nodeAt m idx).pfx.length false = r := by rw [hr]; rfl
  have hidxbplt : (nodeAt m idx).pfx.length < bp.length := by
    rcases Nat.lt_or_ge (nodeAt m idx).pfx.length bp.length with hlt | hge
    · exact hlt
    · exfalso
      have hpeq : (nodeAt m idx).pfx = bp :=
        hidxbp.eq_of_length (Nat.le_antisymm hidxbp.length_le hge)
      apply hdivbit
      rw [← hpeq, hrbit, hbit]
  have hbpbit : bp.getD (nodeAt m idx).pfx.length false = r := by
    have h1 : key.getD (nodeAt m idx).pfx.length false =
        bp.getD (nodeAt m idx).pfx.length false := getD_of_extends hbpk hidxbplt false
    rw [← h1, hrbit]
  have hidxnebp : (nodeAt m idx).pfx ≠ bp := fun he => by rw [he] at hidxbplt; omega
  have hroot0 : (nodeAt m 0).pfx <+: key := by rw [hroot]; exact List.nil_prefix
  intro j hj hpj
  rcases walk_funnel hE (key.length + 1) 0 idx _ j h0 hroot0 hwalk
    (hreach j hj) hpj hidxbp hidxnebp with ⟨c', hc', hsub'⟩
  have hside : sideBit (nodeAt m idx).pfx bp = r := hbpbit
  rw [hside, hc] at hc'
  have hcc : c = c' := Option.some.inj hc'.symm |>.symm
  subst hcc
  have := (inSub_pfx hE hsub').1
  rw [hpj] at this
  exact absurd this.length_le (by omega)

/-- Committing a vacant direction computed by the walk succeeds and preserves
well-formedness. -/
theorem vacantInsert_wf {T : Type} {m : PrefixMap T} (hW : WF m) {key : List Bool}
    {idx : Nat} {d : DirectionForInsert}
    (hwalk : entryGo m key 0 (key.length + 1) = some (idx, d)) (v : T) :
    ∃ m' nIdx, vacantInsert m key idx d v = some (m', nIdx) ∧ WF m' := by
  rcases walk_terminal_spec hW hwalk with ⟨hidx, hik, hins, hts⟩
  cases d with
  | enter nx r => exact absurd hts (by rw [TerminalSpec]; exact not_false)
  | reached =>
    exact ⟨setValue m idx (some v), idx, shape_reached m key idx v, wf_setValue hW idx _⟩
  | newLeaf r =>
    rcases hts with ⟨hne, hr, hnochild⟩
    rcases shape_newLeaf m key idx r v hidx with
      ⟨m', heq, hlen, hframe, hpfxidx, _, hchild, hnpfx, _, hnchild⟩
    refine ⟨m', m.table.length, heq, ?_⟩
    exact wf_patch_newLeaf hW hidx hik hne hr hnochild hins
      (absent_key hW hwalk (by simp) (by simp)) hlen hframe hpfxidx hchild hnpfx hnchild
  | newChild r cr =>
    rcases hts with ⟨hne, hr, c, hc, hckey, hkeyc, hcr⟩
    rcases shape_newChild m key idx r cr v c hidx hc with
      ⟨m', heq, hlen, hframe, hpfxidx, _, hchild, hnpfx, _, hnchild⟩
    refine ⟨m', m.table.length, heq, ?_⟩
    exact wf_patch_newChild hW hidx hik hne hr hc hckey hkeyc hcr hins
      (absent_key hW hwalk (by simp) (by simp)) hlen hframe hpfxidx hchild hnpfx hnchild
  | newBranch bp r pr =>
    rcases hts with ⟨hne, hr, c, hc, hckey, hkeyc, hbp, hpr⟩
    rcases shape_newBranch m key bp idx r pr v c hidx hc with
      ⟨m', heq, hlen, hframe, hpfxidx, _, hchild, hbpfx, _, hbchild, hnpfx, _, hnchild⟩
    refine ⟨m', m.table.length + 1, heq, ?_⟩
    exact wf_patch_newBranch hW hidx hik hne hr hc hckey hkeyc hbp hpr hins
      (absent_key hW hwalk (by simp) (by simp)) (absent_branchPfx hW hwalk)
      hlen hframe hpfxidx hchild hbpfx hbchild hnpfx hnchild

/-! ### Round trip: the committed value is found by lookup -/

theorem walk_to_gets {T : Type} {m m' : PrefixMap T} (hE : edgesOK m) {key : List Bool}
    {idx : Nat} {d : DirectionForInsert} {res : Option T}
    (hframe : ∀ j, j < m.table.length → j ≠ idx → nodeAt m' j = nodeAt m j)
    (hterm : Gets m' key idx res) :
    ∀ fuel cur, cur < m.table.length → (nodeAt m cur).pfx <+: key →
      entryGo m key cur fuel = some (idx, d) → Gets m' key cur res := by
  intro fuel
  induction fuel with
  | zero => intro cur _ _ h; simp [entryGo] at h
  | succ f ih =>
    intro cur hcur hpfx h
    rw [entryGo] at h
    cases hd : getDirectionForInsert m cur key with
    | enter nx r =>
      rw [hd] at h
      rcases gdfi_enter hd with ⟨hne, hr, hcc, hnx⟩
      rw [hr] at hcc
      rcases edge_facts hE hcc with ⟨hlt, hpp, hll, _⟩
      rcases entryGo_spec hE f nx idx d hlt hnx h with ⟨hidxlt, hxi, _, _, _⟩
      have hcurne : cur ≠ idx := by
        intro he
        have h1 := hxi.length_le
        rw [he] at hll
        omega
      have hnode : nodeAt m' cur = nodeAt m cur := hframe cur hcur hcurne
      refine Gets.down ?_ ?_ ?_ (ih nx hlt hnx h)
      · rw [hnode]; exact hne
      · rw [hnode]; exact hpfx
      · rw [childAt_congr hnode, hnode]; exact hcc
    | reached =>
      rw [hd] at h
      simp only [Option.some.injEq, Prod.mk.injEq] at h
      rcases h with ⟨rfl, rfl⟩
      exact hterm
    | newLeaf r =>
      rw [hd] at h
      simp only [Option.some.injEq, Prod.mk.injEq] at h
      rcases h with ⟨rfl, rfl⟩
      exact hterm
    | newChild r cr =>
      rw [hd] at h
      simp only [Option.some.injEq, Prod.mk.injEq] at h
      rcases h with ⟨rfl, rfl⟩
      exact hterm
    | newBranch bp r pr =>
      rw [hd] at h
      simp only [Option.some.injEq, Prod.mk.injEq] at h
      rcases h with ⟨rfl, rfl⟩
      exact hterm

theorem commit_gets {T : Type} {m m' : PrefixMap T} (hW : WF m) {key : List Bool}
    {idx nIdx : Nat} {d : DirectionForInsert} {v : T}
    (hwalk : entryGo m key 0 (key.length + 1) = some (idx, d))
    (hcommit : vacantInsert m key idx d v = some (m', nIdx)) :
    Gets m' key 0 (some v) := by
  rcases walk_terminal_spec hW hwalk with ⟨hidx, hik, hins, hts⟩
  obtain ⟨h0, hroot, hE, hreach, hdist⟩ := hW
  have hroot0 : (nodeAt m 0).pfx <+: key := by rw [hroot]; exact List.nil_prefix
  cases d with
  | enter nx r => rw [TerminalSpec] at hts; exact absurd hts not_false
  | reached =>
    have h := hcommit.symm.trans (shape_reached m key idx v)
    simp only [Option.some.injEq, Prod.mk.injEq] at h
    obtain ⟨hmeq, -⟩ := h
    subst hmeq
    have hnode := nodeAt_setValue_self m idx (some v) hidx
    have hp : (nodeAt (setValue m idx (some v)) idx).pfx = key := by
      rw [hnode]; exact hts
    have hv : (nodeAt (setValue m idx (some v)) idx).value = some v := by rw [hnode]
    have hterm0 := Gets.here hp
    rw [hv] at hterm0
    have hterm : Gets (setValue m idx (some v)) key idx (some v) := hterm0
    exact walk_to_gets hE (fun j hj hne' => nodeAt_setValue_ne m idx (some v) hne')
      hterm (key.length + 1) 0 h0 hroot0 hwalk
  | newLeaf r =>
    rcases hts with ⟨hne, hr, hnochild⟩
    rcases shape_newLeaf m key idx r v hidx with
      ⟨m', heq, hlen, hframe, hpfxidx, hvalidx, hchild, hnpfx, hnval, hnchild⟩
    have h := hcommit.symm.trans heq
    simp only [Option.some.injEq, Prod.mk.injEq] at h
    obtain ⟨hmeq, -⟩ := h
    subst hmeq
    have hhere : Gets m' key m.table.length (some v) := hnval ▸ Gets.here hnpfx
    have hdown : childAt m' idx (sideBit (nodeAt m' idx).pfx key) = some m.table.length := by
      rw [hpfxidx, hchild, if_pos hr.symm]
    have hterm : Gets m' key idx (some v) :=
      Gets.down (by rw [hpfxidx]; exact hne) (by rw [hpfxidx]; exact hik) hdown hhere
    exact walk_to_gets hE (fun j hj hne' => hframe j hne' hj) hterm
      (key.length + 1) 0 h0 hroot0 hwalk
  | newChild r cr =>
    rcases hts with ⟨hne, hr, c, hc, hckey, hkeyc, hcr⟩
    rcases shape_newChild m key idx r cr v c hidx hc with
      ⟨m', heq, hlen, hframe, hpfxidx, hvalidx, hchild, hnpfx, hnval, hnchild⟩
    have h := hcommit.symm.trans heq
    simp only [Option.some.injEq, Prod.mk.injEq] at h
    obtain ⟨hmeq, -⟩ := h
    subst hmeq
    have hhere : Gets m' key m.table.length (some v) := hnval ▸ Gets.here hnpfx
    have hdown : childAt m' idx (sideBit (nodeAt m' idx).pfx key) = some m.table.length := by
      rw [hpfxidx, hchild, if_pos hr.symm]
    have hterm : Gets m' key idx (some v) :=
      Gets.down (by rw [hpfxidx]; exact hne) (by rw [hpfxidx]; exact hik) hdown hhere
    exact walk_to_gets hE (fun j hj hne' => hframe j hne' hj) hterm
      (key.length + 1) 0 h0 hroot0 hwalk
  | newBranch bp r pr =>
    rcases hts with ⟨hne, hr, c, hc, hckey, hkeyc, hbp, hpr⟩
    rcases shape_newBranch m key bp idx r pr v c hidx hc with
      ⟨m', heq, hlen, hframe, hpfxidx, hvalidx, hchild, hbpfx, hbval, hbchild,
        hnpfx, hnval, hnchild⟩
    have h := hcommit.symm.trans heq
    simp only [Option.some.injEq, Prod.mk.injEq] at h
    obtain ⟨hmeq, -⟩ := h
    subst hmeq
    have hdiv := lcp_diverge key (nodeAt m c).pfx hkeyc hckey
    have hbpk : bp <+: key := hbp ▸ lcp_prefix_left key (nodeAt m c).pfx
    have hbpkl : bp.length < key.length := by rw [hbp]; exact hdiv.1
    have hbpnekey : bp ≠ key := fun he => by rw [he] at hbpkl; omega
    have hhere : Gets m' key (m.table.length + 1) (some v) := hnval ▸ Gets.here hnpfx
    have hdown2 : childAt m' m.table.length
        (sideBit (nodeAt m' m.table.length).pfx key) = some (m.table.length + 1) := by
      rw [hbpfx, hbchild, if_pos hpr.symm]
    have hmid : Gets m' key m.table.length (some v) :=
      Gets.down (by rw [hbpfx]; exact hbpnekey) (by rw [hbpfx]; exact hbpk) hdown2 hhere
    have hdown1 : childAt m' idx (sideBit (nodeAt m' idx).pfx key) = some m.table.length := by
      rw [hpfxidx, hchild, if_pos hr.symm]
    have hterm : Gets m' key idx (some v) :=
      Gets.down (by rw [hpfxidx]; exact hne) (by rw [hpfxidx]; exact hik) hdown1 hmid
    exact walk_to_gets hE (fun j hj hne' => hframe j hne' hj) hterm
      (key.length + 1) 0 h0 hroot0 hwalk

/-! ### Lookup characterization through the walk -/

theorem gets_none_of_div {T : Type} {m : PrefixMap T} {k : List Bool} {c : Nat}
    {r0 : Option T} (hg : Gets m k c r0)
    (h1 : (nodeAt m c).pfx ≠ k) (h2 : ¬ (nodeAt m c).pfx <+: k) : r0 = none := by
  cases hg with
  | here hp => exact absurd hp h1
  | down _ hpre _ _ => exact absurd hpre h2
  | stopLeaf _ _ _ => rfl
  | stopDiv _ => rfl

theorem gdfi_setValue {T : Type} (m : PrefixMap T) (i : Nat) (w : Option T)
    (cur : Nat) (key : List Bool) :
    getDirectionForInsert (setValue m i w) cur key = getDirectionForInsert m cur key := by
  simp only [getDirectionForInsert, pfx_setValue, childAt_setValue]

theorem entryGo_setValue {T : Type} (m : PrefixMap T) (i : Nat) (w : Option T)
    (key : List Bool) :
    ∀ fuel cur, entryGo (setValue m i w) key cur fuel = entryGo m key cur fuel := by
  intro fuel
  induction fuel with
  | zero => intro cur; rfl
  | succ f ih =>
    intro cur
    rw [entryGo, entryGo, gdfi_setValue]
    cases getDirectionForInsert m cur key with
    | enter nx r => exact ih nx
    | reached => rfl
    | newLeaf r => rfl
    | newChild r cr => rfl
    | newBranch bp r pr => rfl

/-- A walk ending Reached determines the lookup result: the value of the reached
node. -/
theorem reached_get {T : Type} {m : PrefixMap T} (hW : WF m) {key : List Bool}
    {idx : Nat} (hwalk : entryGo m key 0 (key.length + 1) = some (idx, .reached)) :
    m.get key = (nodeAt m idx).value := by
  rcases walk_terminal_spec hW hwalk with ⟨hidx, hik, hins, hts⟩
  obtain ⟨h0, hroot, hE, _, _⟩ := hW
  have hroot0 : (nodeAt m 0).pfx <+: key := by rw [hroot]; exact List.nil_prefix
  refine (get_iff_gets hE).2 ?_
  exact walk_to_gets hE (fun j hj hne => rfl) (Gets.here hts)
    (key.length + 1) 0 h0 hroot0 hwalk

/-- A walk ending on a non-Enter direction other than an occupied Reached leaves
the lookup reporting absence. -/
theorem vacant_get_none {T : Type} {m : PrefixMap T} (hW : WF m) {key : List Bool}
    {idx : Nat} {d : DirectionForInsert}
    (hwalk : entryGo m key 0 (key.length + 1) = some (idx, d))
    (hval : d = .reached → (nodeAt m idx).value = none)
    (hd2 : ∀ nx r, d ≠ .enter nx r) :
    m.get key = none := by
  rcases walk_terminal_spec hW hwalk with ⟨hidx, hik, hins, hts⟩
  obtain ⟨h0, hroot, hE, _, _⟩ := hW
  have hroot0 : (nodeAt m 0).pfx <+: key := by rw [hroot]; exact List.nil_prefix
  refine (get_iff_gets hE).2 ?_
  refine walk_to_gets hE (fun j hj hne => rfl) ?_ (key.length + 1) 0 h0 hroot0 hwalk
  cases d with
  | enter nx r => exact absurd rfl (hd2 nx r)
  | reached =>
    have h : Gets m key idx (nodeAt m idx).value := Gets.here hts
    rw [hval rfl] at h
    exact h
  | newLeaf r =>
    rcases hts with ⟨hne, hr, hnochild⟩
    exact Gets.stopLeaf hne hik (by rw [← hr]; exact hnochild)
  | newChild r cr =>
    rcases hts with ⟨hne, hr, c, hc, hckey, hkeyc, hcr⟩
    have hcne : (nodeAt m c).pfx ≠ key := fun he => hckey (he ▸ List.prefix_refl _)
    exact Gets.down hne hik (by rw [← hr]; exact hc) (Gets.stopDiv hckey)
  | newBranch bp r pr =>
    rcases hts with ⟨hne, hr, c, hc, hckey, hkeyc, hbp, hpr⟩
    exact Gets.down hne hik (by rw [← hr]; exact hc) (Gets.stopDiv hckey)

/-- Overwriting the value at the node a Reached walk ends on is visible to get. -/
theorem get_setValue_reached {T : Type} {m : PrefixMap T} (hW : WF m) {key : List Bool}
    {idx : Nat} (hwalk : entryGo m key 0 (key.length + 1) = some (idx, .reached))
    (w : Option T) : (setValue m idx w).get key = w := by
  rcases walk_terminal_spec hW hwalk with ⟨hidx, hik, hins, hts⟩
  have hE' : edgesOK (setValue m idx w) := (wf_setValue hW idx w).2.2.1
  obtain ⟨h0, hroot, hE, _, _⟩ := hW
  have hroot0 : (nodeAt m 0).pfx <+: key := by rw [hroot]; exact List.nil_prefix
  refine (get_iff_gets hE').2 ?_
  have hnode := nodeAt_setValue_self m idx w hidx
  have hp : (nodeAt (setValue m idx w) idx).pfx = key := by rw [hnode]; exact hts
  have hterm0 := Gets.here hp
  have hv : (nodeAt (setValue m idx w) idx).value = w := by rw [hnode]
  rw [hv] at hterm0
  exact walk_to_gets hE (fun j hj hne => nodeAt_setValue_ne m idx w hne) hterm0
    (key.length + 1) 0 h0 hroot0 hwalk

/-- Lookup of a key distinct from the one whose value slot changed is unchanged. -/
theorem gets_setValue_frame {T : Type} {m : PrefixMap T} {i : Nat} {w : Option T}
    {k : List Bool} (hne : (nodeAt m i).pfx ≠ k) :
    ∀ {cur : Nat} {r0 : Option T}, Gets m k cur r0 → Gets (setValue m i w) k cur r0 := by
  intro cur r0 hg
  induction hg with
  | here hp =>
    rename_i cur0
    have hcne : cur0 ≠ i := fun he => hne (he ▸ hp)
    have hnode : nodeAt (setValue m i w) cur0 = nodeAt m cur0 :=
      nodeAt_setValue_ne m i w hcne
    have hp' : (nodeAt (setValue m i w) cur0).pfx = k := by rw [hnode]; exact hp
    have h0 := Gets.here hp'
    rw [hnode] at h0
    exact h0
  | down hne0 hpre hc _ ih =>
    exact Gets.down (by rw [pfx_setValue]; exact hne0) (by rw [pfx_setValue]; exact hpre)
      (by rw [childAt_setValue, pfx_setValue]; exact hc) ih
  | stopLeaf hne0 hpre hc =>
    exact Gets.stopLeaf (by rw [pfx_setValue]; exact hne0) (by rw [pfx_setValue]; exact hpre)
      (by rw [childAt_setValue, pfx_setValue]; exact hc)
  | stopDiv hnp =>
    exact Gets.stopDiv (by rw [pfx_setValue]; exact hnp)

theorem get_setValue_frame {T : Type} {m : PrefixMap T} (hW : WF m) {i : Nat}
    {w : Option T} {k : List Bool} (hne : (nodeAt m i).pfx ≠ k) :
    (setValue m i w).get k = m.get k := by
  have hE : edgesOK m := hW.2.2.1
  have hE' : edgesOK (setValue m i w) := (wf_setValue hW i w).2.2.1
  have h1 : Gets m k 0 (m.get k) := (get_iff_gets hE).1 rfl
  exact (get_iff_gets hE').2 (gets_setValue_frame hne h1)

/-! ### Frame: lookups of other keys are unchanged by a commit -/

theorem gets_transfer_newLeaf {T : Type} {m m' : PrefixMap T} (hE : edgesOK m)
    {key k' : List Bool} {idx : Nat} {r : Bool}
    (hkne : k' ≠ key)
    (hnochild : childAt m idx r = none)
    (hframe : ∀ j, j ≠ idx → j < m.table.length → nodeAt m' j = nodeAt m j)
    (hpfxidx : (nodeAt m' idx).pfx = (nodeAt m idx).pfx)
    (hvalidx : (nodeAt m' idx).value = (nodeAt m idx).value)
    (hchild : ∀ t, childAt m' idx t = if t = r then some m.table.length else childAt m idx t)
    (hnpfx : (nodeAt m' m.table.length).pfx = key)
    (hnchild : ∀ t, childAt m' m.table.length t = none) :
    ∀ {cur : Nat} {r0 : Option T}, Gets m k' cur r0 → cur < m.table.length →
      Gets m' k' cur r0 := by
  intro cur r0 hg
  induction hg with
  | here hp =>
    rename_i cur0
    intro hcur
    by_cases hci : cur0 = idx
    · subst hci
      have hp' : (nodeAt m' cur0).pfx = k' := by rw [hpfxidx]; exact hp
      have h0 := Gets.here hp'
      rw [hvalidx] at h0
      exact h0
    · have hnode := hframe cur0 hci hcur
      have hp' : (nodeAt m' cur0).pfx = k' := by rw [hnode]; exact hp
      have h0 := Gets.here hp'
      rw [hnode] at h0
      exact h0
  | down hne0 hpre hc htail ih =>
    rename_i cur0 c0 r1
    intro hcur
    have hclt : c0 < m.table.length := (edge_facts hE hc).1
    by_cases hci : cur0 = idx
    · subst hci
      have hsr : sideBit (nodeAt m cur0).pfx k' ≠ r := by
        intro he
        rw [he, hnochild] at hc
        cases hc
      refine Gets.down ?_ ?_ ?_ (ih hclt)
      · rw [hpfxidx]; exact hne0
      · rw [hpfxidx]; exact hpre
      · rw [hpfxidx, hchild, if_neg hsr]; exact hc
    · have hnode := hframe cur0 hci hcur
      refine Gets.down ?_ ?_ ?_ (ih hclt)
      · rw [hnode]; exact hne0
      · rw [hnode]; exact hpre
      · rw [childAt_congr hnode, hnode]; exact hc
  | stopLeaf hne0 hpre hcnone =>
    rename_i cur0
    intro hcur
    by_cases hci : cur0 = idx
    · subst hci
      by_cases hsr : sideBit (nodeAt m cur0).pfx k' = r
      · have hdown : childAt m' cur0 (sideBit (nodeAt m' cur0).pfx k') =
            some m.table.length := by
          rw [hpfxidx, hchild, if_pos hsr]
        have hnne : (nodeAt m' m.table.length).pfx ≠ k' := by
          rw [hnpfx]; exact fun he => hkne he.symm
        by_cases hkk : key <+: k'
        · exact Gets.down (by rw [hpfxidx]; exact hne0) (by rw [hpfxidx]; exact hpre)
            hdown (Gets.stopLeaf hnne (by rw [hnpfx]; exact hkk) (hnchild _))
        · exact Gets.down (by rw [hpfxidx]; exact hne0) (by rw [hpfxidx]; exact hpre)
            hdown (Gets.stopDiv (by rw [hnpfx]; exact hkk))
      · exact Gets.stopLeaf (by rw [hpfxidx]; exact hne0) (by rw [hpfxidx]; exact hpre)
          (by rw [hpfxidx, hchild, if_neg hsr]; exact hcnone)
    · have hnode := hframe cur0 hci hcur
      exact Gets.stopLeaf (by rw [hnode]; exact hne0) (by rw [hnode]; exact hpre)
        (by rw [childAt_congr hnode, hnode]; exact hcnone)
  | stopDiv hnp =>
    rename_i cur0
    intro hcur
    by_cases hci : cur0 = idx
    · subst hci
      exact Gets.stopDiv (by rw [hpfxidx]; exact hnp)
    · have hnode := hframe cur0 hci hcur
      exact Gets.stopDiv (by rw [hnode]; exact hnp)

theorem gets_transfer_newChild {T : Type} {m m' : PrefixMap T} (hE : edgesOK m)
    {key k' : List Bool} {idx c : Nat} {r cr : Bool}
    (hkne : k' ≠ key)
    (hcold : childAt m idx r = some c)
    (hckey : ¬ (nodeAt m c).pfx <+: key) (hkeyc : key <+: (nodeAt m c).pfx)
    (hcr : cr = sideBit key (nodeAt m c).pfx)
    (hframe : ∀ j, j ≠ idx → j < m.table.length → nodeAt m' j = nodeAt m j)
    (hpfxidx : (nodeAt m' idx).pfx = (nodeAt m idx).pfx)
    (hvalidx : (nodeAt m' idx).value = (nodeAt m idx).value)
    (hchild : ∀ t, childAt m' idx t = if t = r then some m.table.length else childAt m idx t)
    (hnpfx : (nodeAt m' m.table.length).pfx = key)
    (hnchild : ∀ t, childAt m' m.table.length t = if t = cr then some c else none) :
    ∀ {cur : Nat} {r0 : Option T}, Gets m k' cur r0 → cur < m.table.length →
      Gets m' k' cur r0 := by
  have hknesymm : key ≠ k' := fun he => hkne he.symm
  have hkeycne : key ≠ (nodeAt m c).pfx := fun he => hckey (he ▸ List.prefix_refl _)
  have hkeyclt : key.length < (nodeAt m c).pfx.length := length_lt_of_prefix_ne hkeyc hkeycne
  have hcrbit : (nodeAt m c).pfx.getD key.length false = cr := hcr.symm
  have hnnek : (nodeAt m' m.table.length).pfx ≠ k' := by
    rw [hnpfx]; exact hknesymm
  intro cur r0 hg
  induction hg with
  | here hp =>
    rename_i cur0
    intro hcur
    by_cases hci : cur0 = idx
    · subst hci
      have hp' : (nodeAt m' cur0).pfx = k' := by rw [hpfxidx]; exact hp
      have h0 := Gets.here hp'
      rw [hvalidx] at h0
      exact h0
    · have hnode := hframe cur0 hci hcur
      have hp' : (nodeAt m' cur0).pfx = k' := by rw [hnode]; exact hp
      have h0 := Gets.here hp'
      rw [hnode] at h0
      exact h0
  | down hne0 hpre hc htail ih =>
    rename_i cur0 c0 r1
    intro hcur
    have hclt : c0 < m.table.length := (edge_facts hE hc).1
    by_cases hci : cur0 = idx
    · subst hci
      by_cases hsr : sideBit (nodeAt m cur0).pfx k' = r
      · rw [hsr, hcold] at hc
        have hcc : c0 = c := Option.some.inj hc.symm
        subst hcc
        have hdown1 : childAt m' cur0 (sideBit (nodeAt m' cur0).pfx k') =
            some m.table.length := by
          rw [hpfxidx, hchild, if_pos hsr]
        by_cases hkk : key <+: k'
        · have hkklt : key.length < k'.length := length_lt_of_prefix_ne hkk hknesymm
          by_cases hscr : sideBit key k' = cr
          · have hdown2 : childAt m' m.table.length
                (sideBit (nodeAt m' m.table.length).pfx k') = some c0 := by
              rw [hnpfx, hnchild, if_pos hscr]
            exact Gets.down (by rw [hpfxidx]; exact hne0) (by rw [hpfxidx]; exact hpre)
              hdown1 (Gets.down hnnek (by rw [hnpfx]; exact hkk) hdown2 (ih hclt))
          · have hr1 : r1 = none := by
              refine gets_none_of_div htail ?_ ?_
              · intro he
                apply hscr
                rw [sideBit, ← he, hcrbit]
              · intro hpc
                apply hscr
                rw [sideBit, getD_of_extends hpc hkeyclt, hcrbit]
            subst hr1
            exact Gets.down (by rw [hpfxidx]; exact hne0) (by rw [hpfxidx]; exact hpre)
              hdown1 (Gets.stopLeaf hnnek (by rw [hnpfx]; exact hkk)
                (by rw [hnpfx, hnchild, if_neg hscr]))
        · have hr1 : r1 = none := by
            refine gets_none_of_div htail ?_ ?_
            · intro he
              exact hkk (he ▸ hkeyc)
            · intro hpc
              exact hkk (hkeyc.trans hpc)
          subst hr1
          exact Gets.down (by rw [hpfxidx]; exact hne0) (by rw [hpfxidx]; exact hpre)
            hdown1 (Gets.stopDiv (by rw [hnpfx]; exact hkk))
      · refine Gets.down ?_ ?_ ?_ (ih hclt)
        · rw [hpfxidx]; exact hne0
        · rw [hpfxidx]; exact hpre
        · rw [hpfxidx, hchild, if_neg hsr]; exact hc
    · have hnode := hframe cur0 hci hcur
      refine Gets.down ?_ ?_ ?_ (ih hclt)
      · rw [hnode]; exact hne0
      · rw [hnode]; exact hpre
      · rw [childAt_congr hnode, hnode]; exact hc
  | stopLeaf hne0 hpre hcnone =>
    rename_i cur0
    intro hcur
    by_cases hci : cur0 = idx
    · subst hci
      by_cases hsr : sideBit (nodeAt m cur0).pfx k' = r
      · rw [hsr, hcold] at hcnone
        cases hcnone
      · exact Gets.stopLeaf (by rw [hpfxidx]; exact hne0) (by rw [hpfxidx]; exact hpre)
          (by rw [hpfxidx, hchild, if_neg hsr]; exact hcnone)
    · have hnode := hframe cur0 hci hcur
      exact Gets.stopLeaf (by rw [hnode]; exact hne0) (by rw [hnode]; exact hpre)
        (by rw [childAt_congr hnode, hnode]; exact hcnone)
  | stopDiv hnp =>
    rename_i cur0
    intro hcur
    by_cases hci : cur0 = idx
    · subst hci
      exact Gets.stopDiv (by rw [hpfxidx]; exact hnp)
    · have hnode := hframe cur0 hci hcur
      exact Gets.stopDiv (by rw [hnode]; exact hnp)

theorem gets_transfer_newBranch {T : Type} {m m' : PrefixMap T} (hE : edgesOK m)
    {key bp k' : List Bool} {idx c : Nat} {r pr : Bool}
    (hkne : k' ≠ key)
    (hcold : childAt m idx r = some c)
    (hckey : ¬ (nodeAt m c).pfx <+: key) (hkeyc : ¬ key <+: (nodeAt m c).pfx)
    (hbp : bp = lcp key (nodeAt m c).pfx)
    (hpr : pr = sideBit bp key)
    (hframe : ∀ j, j ≠ idx → j < m.table.length → nodeAt m' j = nodeAt m j)
    (hpfxidx : (nodeAt m' idx).pfx = (nodeAt m idx).pfx)
    (hvalidx : (nodeAt m' idx).value = (nodeAt m idx).value)
    (hchild : ∀ t, childAt m' idx t = if t = r then some m.table.length else childAt m idx t)
    (hbpfx : (nodeAt m' m.table.length).pfx = bp)
    (hbval : (nodeAt m' m.table.length).value = none)
    (hbchild : ∀ t, childAt m' m.table.length t =
      if t = pr then some (m.table.length + 1) else some c)
    (hnpfx : (nodeAt m' (m.table.length + 1)).pfx = key)
    (hn1child : ∀ t, childAt m' (m.table.length + 1) t = none) :
    ∀ {cur : Nat} {r0 : Option T}, Gets m k' cur r0 → cur < m.table.length →
      Gets m' k' cur r0 := by
  have hknesymm : key ≠ k' := fun he => hkne he.symm
  have hdiv := lcp_diverge key (nodeAt m c).pfx hkeyc hckey
  have hbpk : bp <+: key := hbp ▸ lcp_prefix_left key (nodeAt m c).pfx
  have hbpc : bp <+: (nodeAt m c).pfx := hbp ▸ lcp_prefix_right key (nodeAt m c).pfx
  have hbpkl : bp.length < key.length := by rw [hbp]; exact hdiv.1
  have hbpcl : bp.length < (nodeAt m c).pfx.length := by rw [hbp]; exact hdiv.2.1
  have hdivbit : key.getD bp.length false ≠ (nodeAt m c).pfx.getD bp.length false := by
    rw [hbp]; exact hdiv.2.2
  have hprbit : key.getD bp.length false = pr := hpr.symm
  have hcnotpr : (nodeAt m c).pfx.getD bp.length false ≠ pr := fun he =>
    hdivbit (hprbit.trans he.symm)
  have hn1nek : (nodeAt m' (m.table.length + 1)).pfx ≠ k' := by
    rw [hnpfx]; exact hknesymm
  intro cur r0 hg
  induction hg with
  | here hp =>
    rename_i cur0
    intro hcur
    by_cases hci : cur0 = idx
    · subst hci
      have hp' : (nodeAt m' cur0).pfx = k' := by rw [hpfxidx]; exact hp
      have h0 := Gets.here hp'
      rw [hvalidx] at h0
      exact h0
    · have hnode := hframe cur0 hci hcur
      have hp' : (nodeAt m' cur0).pfx = k' := by rw [hnode]; exact hp
      have h0 := Gets.here hp'
      rw [hnode] at h0
      exact h0
  | down hne0 hpre hc htail ih =>
    rename_i cur0 c0 r1
    intro hcur
    have hclt : c0 < m.table.length := (edge_facts hE hc).1
    by_cases hci : cur0 = idx
    · subst hci
      by_cases hsr : sideBit (nodeAt m cur0).pfx k' = r
      · rw [hsr, hcold] at hc
        have hcc : c0 = c := Option.some.inj hc.symm
        subst hcc
        have hdown1 : childAt m' cur0 (sideBit (nodeAt m' cur0).pfx k') =
            some m.table.length := by
          rw [hpfxidx, hchild, if_pos hsr]
        have hidxconds1 : (nodeAt m' cur0).pfx ≠ k' := by rw [hpfxidx]; exact hne0
        have hidxconds2 : (nodeAt m' cur0).pfx <+: k' := by rw [hpfxidx]; exact hpre
        by_cases hbk : bp = k'
        · have hr1 : r1 = none := by
            refine gets_none_of_div htail ?_ ?_
            · intro he
              rw [← hbk] at he
              rw [he] at hbpcl
              omega
            · intro hpc
              have := hpc.length_le
              rw [← hbk] at this
              omega
          subst hr1
          have hp' : (nodeAt m' m.table.length).pfx = k' := by rw [hbpfx]; exact hbk
          have h0 := Gets.here hp'
          rw [hbval] at h0
          exact Gets.down hidxconds1 hidxconds2 hdown1 h0
        · by_cases hbkk : bp <+: k'
          · have hbklt : bp.length < k'.length := length_lt_of_prefix_ne hbkk hbk
            by_cases hspr : sideBit bp k' = pr
            · have hdown2 : childAt m' m.table.length
                  (sideBit (nodeAt m' m.table.length).pfx k') =
                    some (m.table.length + 1) := by
                rw [hbpfx, hbchild, if_pos hspr]
              have hr1 : r1 = none := by
                refine gets_none_of_div htail ?_ ?_
                · intro he
                  apply hcnotpr
                  rw [he]
                  exact hspr
                · intro hpc
                  apply hcnotpr
                  rw [← getD_of_extends hpc hbpcl]
                  exact hspr
              subst hr1
              by_cases hkk : key <+: k'
              · exact Gets.down hidxconds1 hidxconds2 hdown1
                  (Gets.down (by rw [hbpfx]; exact hbk) (by rw [hbpfx]; exact hbkk) hdown2
                    (Gets.stopLeaf hn1nek (by rw [hnpfx]; exact hkk) (hn1child _)))
              · exact Gets.down hidxconds1 hidxconds2 hdown1
                  (Gets.down (by rw [hbpfx]; exact hbk) (by rw [hbpfx]; exact hbkk) hdown2
                    (Gets.stopDiv (by rw [hnpfx]; exact hkk)))
            · have hdown2 : childAt m' m.table.length
                  (sideBit (nodeAt m' m.table.length).pfx k') = some c0 := by
                rw [hbpfx, hbchild, if_neg hspr]
              exact Gets.down hidxconds1 hidxconds2 hdown1
                (Gets.down (by rw [hbpfx]; exact hbk) (by rw [hbpfx]; exact hbkk) hdown2
                  (ih hclt))
          · have hr1 : r1 = none := by
              refine gets_none_of_div htail ?_ ?_
              · intro he
                exact hbkk (he ▸ hbpc)
              · intro hpc
                exact hbkk (hbpc.trans hpc)
            subst hr1
            exact Gets.down hidxconds1 hidxconds2 hdown1
              (Gets.stopDiv (by rw [hbpfx]; exact hbkk))
      · refine Gets.down ?_ ?_ ?_ (ih hclt)
        · rw [hpfxidx]; exact hne0
        · rw [hpfxidx]; exact hpre
        · rw [hpfxidx, hchild, if_neg hsr]; exact hc
    · have hnode := hframe cur0 hci hcur
      refine Gets.down ?_ ?_ ?_ (ih hclt)
      · rw [hnode]; exact hne0
      · rw [hnode]; exact hpre
      · rw [childAt_congr hnode, hnode]; exact hc
  | stopLeaf hne0 hpre hcnone =>
    rename_i cur0
    intro hcur
    by_cases hci : cur0 = idx
    · subst hci
      by_cases hsr : sideBit (nodeAt m cur0).pfx k' = r
      · rw [hsr, hcold] at hcnone
        cases hcnone
      · exact Gets.stopLeaf (by rw [hpfxidx]; exact hne0) (by rw [hpfxidx]; exact hpre)
          (by rw [hpfxidx, hchild, if_neg hsr]; exact hcnone)
    · have hnode := hframe cur0 hci hcur
      exact Gets.stopLeaf (by rw [hnode]; exact hne0) (by rw [hnode]; exact hpre)
        (by rw [childAt_congr hnode, hnode]; exact hcnone)
  | stopDiv hnp =>
    rename_i cur0
    intro hcur
    by_cases hci : cur0 = idx
    · subst hci
      exact Gets.stopDiv (by rw [hpfxidx]; exact hnp)
    · have hnode := hframe cur0 hci hcur
      exact Gets.stopDiv (by rw [hnode]; exact hnp)

theorem commit_frame {T : Type} {m m' : PrefixMap T} (hW : WF m) {key : List Bool}
    {idx nIdx : Nat} {d : DirectionForInsert} {v : T}
    (hwalk : entryGo m key 0 (key.length + 1) = some (idx, d))
    (hcommit : vacantInsert m key idx d v = some (m', nIdx)) :
    ∀ k', k' ≠ key → m'.get k' = m.get k' := by
  intro k' hkne
  rcases walk_terminal_spec hW hwalk with ⟨hidx, hik, hins, hts⟩
  have hWm' : WF m' := by
    rcases vacantInsert_wf hW hwalk v with ⟨m2, n2, he, hw⟩
    have h := hcommit.symm.trans he
    simp only [Option.some.injEq, Prod.mk.injEq] at h
    rw [h.1]
    exact hw
  have hE : edgesOK m := hW.2.2.1
  have hE' : edgesOK m' := hWm'.2.2.1
  have h0 : 0 < m.table.length := hW.1
  have hg : Gets m k' 0 (m.get k') := (get_iff_gets hE).1 rfl
  refine (get_iff_gets hE').2 ?_
  cases d with
  | enter nx r => rw [TerminalSpec] at hts; exact absurd hts not_false
  | reached =>
    have h := hcommit.symm.trans (shape_reached m key idx v)
    simp only [Option.some.injEq, Prod.mk.injEq] at h
    obtain ⟨hmeq, -⟩ := h
    subst hmeq
    have hnekey : (nodeAt m idx).pfx ≠ k' := by rw [hts]; exact fun he => hkne he.symm
    exact gets_setValue_frame hnekey hg
  | newLeaf r =>
    rcases hts with ⟨hne, hr, hnochild⟩
    rcases shape_newLeaf m key idx r v hidx with
      ⟨m2, heq, hlen, hframe, hpfxidx, hvalidx, hchild, hnpfx, hnval, hnchild⟩
    have h := hcommit.symm.trans heq
    simp only [Option.some.injEq, Prod.mk.injEq] at h
    obtain ⟨hmeq, -⟩ := h
    subst hmeq
    exact gets_transfer_newLeaf hE hkne hnochild hframe hpfxidx hvalidx hchild
      hnpfx hnchild hg h0
  | newChild r cr =>
    rcases hts with ⟨hne, hr, c, hc, hckey, hkeyc, hcr⟩
    rcases shape_newChild m key idx r cr v c hidx hc with
      ⟨m2, heq, hlen, hframe, hpfxidx, hvalidx, hchild, hnpfx, hnval, hnchild⟩
    have h := hcommit.symm.trans heq
    simp only [Option.some.injEq, Prod.mk.injEq] at h
    obtain ⟨hmeq, -⟩ := h
    subst hmeq
    exact gets_transfer_newChild hE hkne hc hckey hkeyc hcr hframe hpfxidx hvalidx
      hchild hnpfx hnchild hg h0
  | newBranch bp r pr =>
    rcases hts with ⟨hne, hr, c, hc, hckey, hkeyc, hbp, hpr⟩
    rcases shape_newBranch m key bp idx r pr v c hidx hc with
      ⟨m2, heq, hlen, hframe, hpfxidx, hvalidx, hchild, hbpfx, hbval, hbchild,
        hnpfx, hnval, hn1child⟩
    have h := hcommit.symm.trans heq
    simp only [Option.some.injEq, Prod.mk.injEq] at h
    obtain ⟨hmeq, -⟩ := h
    subst hmeq
    exact gets_transfer_newBranch hE hkne hc hckey hkeyc hbp hpr hframe hpfxidx
      hvalidx hchild hbpfx hbval hbchild hnpfx hn1child hg h0

/-! ### The entry function: totality and classification -/

theorem entry_spec {T : Type} {m : PrefixMap T} (hW : WF m) (key : List Bool) :
    ∃ idx d, entryGo m key 0 (key.length + 1) = some (idx, d) ∧
      (∀ nx r, d ≠ .enter nx r) ∧
      ((d = .reached ∧ (nodeAt m idx).value.isSome ∧
          m.entry key = some (.occupied idx)) ∨
        (m.entry key = some (.vacant key idx d) ∧
          (d = .reached → (nodeAt m idx).value = none))) := by
  rcases entry_walk_total hW key with ⟨idx, d, hw⟩
  rcases walk_terminal_spec hW hw with ⟨hidx, hik, hins, hts⟩
  refine ⟨idx, d, hw, ?_, ?_⟩
  · intro nx r he
    subst he
    rw [TerminalSpec] at hts
    exact hts
  · cases d with
    | enter nx r => rw [TerminalSpec] at hts; exact absurd hts not_false
    | reached =>
      rcases hv : (nodeAt m idx).value with - | x
      · refine Or.inr ⟨?_, fun _ => rfl⟩
        rw [PrefixMap.entry, hw]
        simp [hv]
      · refine Or.inl ⟨rfl, rfl, ?_⟩
        rw [PrefixMap.entry, hw]
        simp [hv]
    | newLeaf r =>
      refine Or.inr ⟨?_, by intro h; cases h⟩
      rw [PrefixMap.entry, hw]
    | newChild r cr =>
      refine Or.inr ⟨?_, by intro h; cases h⟩
      rw [PrefixMap.entry, hw]
    | newBranch bp r pr =>
      refine Or.inr ⟨?_, by intro h; cases h⟩
      rw [PrefixMap.entry, hw]

/-- The central lemma about insertion: on a well-formed map it succeeds, keeps
the map well formed, stores the value at the key, leaves every other key
unchanged, and returns the previous lookup result. -/
theorem insert_ok {T : Type} {m : PrefixMap T} (hW : WF m) (key : List Bool) (v : T) :
    ∃ m' old, m.insert key v = some (m', old) ∧ WF m' ∧
      m'.get key = some v ∧ (∀ k', k' ≠ key → m'.get k' = m.get k') ∧
      old = m.get key := by
  rcases entry_spec hW key with ⟨idx, d, hw, hne, hcase⟩
  rcases walk_terminal_spec hW hw with ⟨hidx, hik, hins, hts⟩
  rcases hcase with ⟨hd, hsome, hocc⟩ | ⟨hvac, hvnone⟩
  · subst hd
    refine ⟨setValue m idx (some v), (nodeAt m idx).value, ?_, wf_setValue hW idx _, ?_, ?_, ?_⟩
    · rw [PrefixMap.insert, hocc]
      rfl
    · exact get_setValue_reached hW hw (some v)
    · intro k' hk
      have hnekey : (nodeAt m idx).pfx ≠ k' := by rw [hts]; exact fun he => hk he.symm
      exact gets_setValue_frame hnekey ((get_iff_gets hW.2.2.1).1 rfl) |>
        fun hgg => (get_iff_gets (wf_setValue hW idx (some v)).2.2.1).2 hgg
    · exact (reached_get hW hw).symm
  · rcases vacantInsert_wf hW hw v with ⟨m', nIdx, hcommit, hWm'⟩
    refine ⟨m', none, ?_, hWm', ?_, ?_, ?_⟩
    · rw [PrefixMap.insert, hvac]
      show (vacantInsert m key idx d v).map (fun r => (r.1, (none : Option T))) =
        some (m', none)
      rw [hcommit]
      rfl
    · exact (get_iff_gets hWm'.2.2.1).2 (commit_gets hW hw hcommit)
    · exact commit_frame hW hw hcommit
    · exact (vacant_get_none hW hw hvnone hne).symm

theorem wf_new (T : Type) : WF (PrefixMap.new T) := by
  refine ⟨by simp [PrefixMap.new], rfl, ?_, ?_, ?_⟩
  · intro i hi s
    refine edgeOK_intro ?_
    intro c hc
    have hnone : childAt (PrefixMap.new T) i s = none := by
      simp [PrefixMap.new] at hi
      subst hi
      cases s <;> rfl
    rw [hnone] at hc
    cases hc
  · intro j hj
    simp [PrefixMap.new] at hj
    subst hj
    exact .refl 0
  · intro i j hi hj _
    simp [PrefixMap.new] at hi hj
    omega

theorem insertAll_wf {T : Type} : ∀ (ops : List (List Bool × T)) (m : PrefixMap T),
    WF m → ∃ m', insertAll m ops = some m' ∧ WF m' := by
  intro ops
  induction ops with
  | nil => intro m hW; exact ⟨m, rfl, hW⟩
  | cons kv rest ih =>
    rcases kv with ⟨k, v⟩
    intro m hW
    rcases insert_ok hW k v with ⟨m1, old, hins, hW1, _, _, _⟩
    rcases ih m1 hW1 with ⟨m', hall, hW'⟩
    refine ⟨m', ?_, hW'⟩
    rw [insertAll, hins]
    exact hall

theorem entry_occupied_elim {T : Type} {m : PrefixMap T} (hW : WF m) {key : List Bool}
    {i : Nat} (h : m.entry key = some (.occupied i)) :
    entryGo m key 0 (key.length + 1) = some (i, .reached) ∧
      (nodeAt m i).pfx = key ∧ i < m.table.length ∧ (nodeAt m i).value.isSome := by
  rcases entry_spec hW key with ⟨idx, d, hw, hne, hcase⟩
  rcases hcase with ⟨hd, hsome, hocc⟩ | ⟨hvac, hvnone⟩
  · subst hd
    rw [hocc] at h
    have heq : EntryE.occupied idx = EntryE.occupied i := Option.some.inj h
    have hii : idx = i := by cases heq; rfl
    subst hii
    rcases walk_terminal_spec hW hw with ⟨h1, _, _, h4⟩
    exact ⟨hw, h4, h1, hsome⟩
  · rw [hvac] at h
    have heq : EntryE.vacant key idx d = EntryE.occupied i := Option.some.inj h
    cases heq

theorem entry_vacant_elim {T : Type} {m : PrefixMap T} (hW : WF m) {key k0 : List Bool}
    {i : Nat} {d : DirectionForInsert}
    (h : m.entry key = some (.vacant k0 i d)) :
    k0 = key ∧ entryGo m key 0 (key.length + 1) = some (i, d) ∧
      (d = .reached → (nodeAt m i).value = none) ∧
      (∀ nx r, d ≠ .enter nx r) ∧ i < m.table.length ∧
      TerminalSpec m key i d := by
  rcases entry_spec hW key with ⟨idx, d0, hw, hne, hcase⟩
  rcases hcase with ⟨hd, hsome, hocc⟩ | ⟨hvac, hvnone⟩
  · rw [hocc] at h
    have heq : EntryE.occupied idx = EntryE.vacant k0 i d := Option.some.inj h
    cases heq
  · rw [hvac] at h
    have heq : EntryE.vacant key idx d0 = EntryE.vacant k0 i d := Option.some.inj h
    cases heq
    rcases walk_terminal_spec hW hw with ⟨h1, _, _, h4⟩
    exact ⟨rfl, hw, hvnone, hne, h1, h4⟩

theorem entry_occupied_of_mem {T : Type} {m : PrefixMap T} (hW : WF m)
    {key : List Bool} {j : Nat} (hj : j < m.table.length)
    (hpfx : (nodeAt m j).pfx = key) (hs : (nodeAt m j).value.isSome) :
    m.entry key = some (.occupied j) := by
  rcases entry_spec hW key with ⟨idx, d, hw, hne, hcase⟩
  have hdist := hW.2.2.2.2
  rcases hcase with ⟨hd, hsome, hocc⟩ | ⟨hvac, hvnone⟩
  · subst hd
    rcases walk_terminal_spec hW hw with ⟨h1, _, _, h4⟩
    have hij : j = idx := hdist j idx hj h1 (hpfx.trans h4.symm)
    rw [hocc, hij]
  · exfalso
    cases d with
    | enter nx r => exact hne nx r rfl
    | reached =>
      rcases walk_terminal_spec hW hw with ⟨h1, _, _, h4⟩
      have hij : j = idx := hdist j idx hj h1 (hpfx.trans h4.symm)
      rw [hij, hvnone rfl] at hs
      simp at hs
    | newLeaf r =>
      exact absent_key hW hw (by simp) (by simp) j hj hpfx
    | newChild r cr =>
      exact absent_key hW hw (by simp) (by simp) j hj hpfx
    | newBranch bp r pr =>
      exact absent_key hW hw (by simp) (by simp) j hj hpfx

theorem gets_here_exists {T : Type} {m : PrefixMap T} (hE : edgesOK m)
    {key : List Bool} {r : Option T} :
    ∀ {cur : Nat}, Gets m key cur r → cur < m.table.length →
      (∃ j, j < m.table.length ∧ (nodeAt m j).pfx = key ∧ (nodeAt m j).value = r) ∨
        r = none := by
  intro cur hg
  induction hg with
  | here hp =>
    rename_i cur0
    intro hcur
    exact Or.inl ⟨cur0, hcur, hp, rfl⟩
  | down _ _ hc _ ih =>
    intro _
    exact ih (edge_facts hE hc).1
  | stopLeaf _ _ _ => intro _; exact Or.inr rfl
  | stopDiv _ => intro _; exact Or.inr rfl

theorem get_some_exists {T : Type} {m : PrefixMap T} (hW : WF m) {key : List Bool}
    {x : T} (h : m.get key = some x) :
    ∃ j, j < m.table.length ∧ (nodeAt m j).pfx = key ∧ (nodeAt m j).value = some x := by
  have hE : edgesOK m := hW.2.2.1
  have hg : Gets m key 0 (some x) := (get_iff_gets hE).1 h
  rcases gets_here_exists hE hg hW.1 with hex | hab
  · exact hex
  · cases hab

theorem commit_new_value {T : Type} {m m' : PrefixMap T} (hW : WF m) {key : List Bool}
    {idx nIdx : Nat} {d : DirectionForInsert} {v : T}
    (hwalk : entryGo m key 0 (key.length + 1) = some (idx, d))
    (hcommit : vacantInsert m key idx d v = some (m', nIdx)) :
    (nodeAt m' nIdx).value = some v := by
  rcases walk_terminal_spec hW hwalk with ⟨hidx, hik, hins, hts⟩
  cases d with
  | enter nx r => rw [TerminalSpec] at hts; exact absurd hts not_false
  | reached =>
    have h := hcommit.symm.trans (shape_reached m key idx v)
    simp only [Option.some.injEq, Prod.mk.injEq] at h
    rcases h with ⟨h1, h2⟩
    rw [h1, h2, nodeAt_setValue_self m idx (some v) hidx]
  | newLeaf r =>
    rcases shape_newLeaf m key idx r v hidx with
      ⟨m2, heq, _, _, _, _, _, _, hnval, _⟩
    have h := hcommit.symm.trans heq
    simp only [Option.some.injEq, Prod.mk.injEq] at h
    rcases h with ⟨h1, h2⟩
    rw [h1, h2]
    exact hnval
  | newChild r cr =>
    rcases hts with ⟨_, _, c, hc, _, _, _⟩
    rcases shape_newChild m key idx r cr v c hidx hc with
      ⟨m2, heq, _, _, _, _, _, _, hnval, _⟩
    have h := hcommit.symm.trans heq
    simp only [Option.some.injEq, Prod.mk.injEq] at h
    rcases h with ⟨h1, h2⟩
    rw [h1, h2]
    exact hnval
  | newBranch bp r pr =>
    rcases hts with ⟨_, _, c, hc, _, _, _, _⟩
    rcases shape_newBranch m key bp idx r pr v c hidx hc with
      ⟨m2, heq, _, _, _, _, _, _, _, _, _, hnval, _⟩
    have h := hcommit.symm.trans heq
    simp only [Option.some.injEq, Prod.mk.injEq] at h
    rcases h with ⟨h1, h2⟩
    rw [h1, h2]
    exact hnval

/-- A key already present as a node prefix makes the walk end Reached at it. -/
theorem entry_at_existing {T : Type} {m : PrefixMap T} (hW : WF m) {key : List Bool}
    {j : Nat} (hj : j < m.table.length) (hpfx : (nodeAt m j).pfx = key) :
    entryGo m key 0 (key.length + 1) = some (j, .reached) := by
  rcases entry_walk_total hW key with ⟨idx, d, hw⟩
  rcases walk_terminal_spec hW hw with ⟨hidx, hik, hins, hts⟩
  have hdist := hW.2.2.2.2
  cases d with
  | enter nx r => rw [TerminalSpec] at hts; exact absurd hts not_false
  | reached =>
    have hij : j = idx := hdist j idx hj hidx (hpfx.trans hts.symm)
    rw [← hij] at hw
    exact hw
  | newLeaf r => exact absurd hpfx (absent_key hW hw (by simp) (by simp) j hj)
  | newChild r cr => exact absurd hpfx (absent_key hW hw (by simp) (by simp) j hj)
  | newBranch bp r pr => exact absurd hpfx (absent_key hW hw (by simp) (by simp) j hj)

theorem get_new_none {T : Type} (k : List Bool) : (PrefixMap.new T).get k = none := by
  cases k with
  | nil => rfl
  | cons a as =>
    rw [PrefixMap.get, getGo]
    simp [PrefixMap.new, nodeAt, childAt]

/-! ### Concrete example map used by witnesses -/

/-- The arena obtained by inserting the prefix 10 into the empty map. -/
def mEx : PrefixMap Nat :=
  ⟨[⟨[], none, none, some 1⟩, ⟨[true, false], some 1, none, none⟩]⟩

theorem mEx_from_insert : (PrefixMap.new Nat).insert [true, false] 1 = some (mEx, none) := by
  decide

theorem wf_mEx : WF mEx := by
  rcases insert_ok (wf_new Nat) [true, false] 1 with ⟨m', old, h1, h2, _, _, _⟩
  rw [mEx_from_insert] at h1
  have h := Option.some.inj h1
  have hfst : mEx = m' := congrArg Prod.fst h
  rw [hfst]
  exact h2

/-! ### The claims -/

/-- Claim C1: for every key k and value v, in any well-formed map state,
insert(k, v) followed by get(k) yields Some(v). -/
theorem claim_C1 {T : Type} (m : PrefixMap T) (key : List Bool) (v : T) (hW : WF m) :
    ∃ m' old, m.insert key v = some (m', old) ∧ m'.get key = some v := by
  rcases insert_ok hW key v with ⟨m', old, h1, _, h3, _, _⟩
  exact ⟨m', old, h1, h3⟩

theorem claim_C1_witness :
    WF (PrefixMap.new Nat) ∧
      ∃ m' old, (PrefixMap.new Nat).insert [true] 7 = some (m', old) ∧
        m'.get [true] = some 7 :=
  ⟨wf_new Nat, claim_C1 (PrefixMap.new Nat) [true] 7 (wf_new Nat)⟩

/-- Claim C2: after any sequence of inserts from new(), every child prefix is a
strict descendant of its parent prefix; two siblings diverge exactly at the
first bit after the parent prefix length, 0 on the left and 1 on the right; and
no two arena nodes share a prefix. -/
theorem claim_C2 {T : Type} (ops : List (List Bool × T)) :
    ∃ m, insertAll (PrefixMap.new T) ops = some m ∧
      (∀ i s c, childAt m i s = some c →
        (nodeAt m i).pfx <+: (nodeAt m c).pfx ∧
          (nodeAt m i).pfx.length < (nodeAt m c).pfx.length) ∧
      (∀ i l rr, childAt m i false = some l → childAt m i true = some rr →
        (nodeAt m l).pfx.getD (nodeAt m i).pfx.length false = false ∧
          (nodeAt m rr).pfx.getD (nodeAt m i).pfx.length false = true ∧
          lcp (nodeAt m l).pfx (nodeAt m rr).pfx = (nodeAt m i).pfx) ∧
      (∀ i j, i < m.table.length → j < m.table.length →
        (nodeAt m i).pfx = (nodeAt m j).pfx → i = j) := by
  rcases insertAll_wf ops (PrefixMap.new T) (wf_new T) with ⟨m, hall, hW⟩
  have hE : edgesOK m := hW.2.2.1
  refine ⟨m, hall, ?_, ?_, hW.2.2.2.2⟩
  · intro i s c hc
    rcases edge_facts hE hc with ⟨_, h2, h3, _⟩
    exact ⟨h2, h3⟩
  · intro i l rr hl hr
    rcases edge_facts hE hl with ⟨_, hpl, hll, hbl⟩
    rcases edge_facts hE hr with ⟨_, hpr, hlr, hbr⟩
    refine ⟨hbl, hbr, ?_⟩
    refine lcp_eq_of_diverge hpl hpr ?_
    rw [hbl, hbr]
    simp

/-- Claim C3: map.entry(k) followed by Entry::insert(v) is observationally the
same operation as map.insert(k, v) (insert is sugar over the entry path), and
the Option it returns is the prior lookup result at k. -/
theorem claim_C3 {T : Type} (m : PrefixMap T) (key : List Bool) (v : T) (hW : WF m) :
    ((match m.entry key with
      | none => none
      | some e => entryInsert m e v) = m.insert key v) ∧
    ∃ m' old, m.insert key v = some (m', old) ∧ old = m.get key := by
  refine ⟨rfl, ?_⟩
  rcases insert_ok hW key v with ⟨m', old, h1, _, _, _, h5⟩
  exact ⟨m', old, h1, h5⟩

theorem claim_C3_witness :
    WF mEx ∧
      (((match mEx.entry [true, false] with
        | none => none
        | some e => entryInsert mEx e 5) = mEx.insert [true, false] 5) ∧
      ∃ m' old, mEx.insert [true, false] 5 = some (m', old) ∧
        old = mEx.get [true, false]) :=
  ⟨wf_mEx, claim_C3 mEx [true, false] 5 wf_mEx⟩

/-- Claim C4: Entry::insert(v) on an Occupied entry swaps in the new value and
returns the old one; on a Vacant entry it returns None and allocates exactly the
nodes the captured direction specifies: none for Reached (the node is reused),
one for NewLeaf and NewChild, two for NewBranch with the synthesized branch node
carrying no value. -/
theorem claim_C4 {T : Type} (m : PrefixMap T) (key : List Bool) (v : T) (hW : WF m) :
    (∀ i, m.entry key = some (.occupied i) →
      ∃ x, (nodeAt m i).value = some x ∧
        entryInsert m (.occupied i) v = some (setValue m i (some v), some x) ∧
        (nodeAt (setValue m i (some v)) i).value = some v ∧
        (setValue m i (some v)).table.length = m.table.length ∧
        (∀ j, j ≠ i → nodeAt (setValue m i (some v)) j = nodeAt m j)) ∧
    (∀ k0 i d, m.entry key = some (.vacant k0 i d) →
      ∃ m' nIdx, vacantInsert m k0 i d v = some (m', nIdx) ∧
        entryInsert m (.vacant k0 i d) v = some (m', none) ∧
        (d = .reached → m'.table.length = m.table.length) ∧
        (∀ r, d = .newLeaf r → m'.table.length = m.table.length + 1) ∧
        (∀ r cr, d = .newChild r cr → m'.table.length = m.table.length + 1) ∧
        (∀ bp r pr, d = .newBranch bp r pr → m'.table.length = m.table.length + 2 ∧
          (nodeAt m' m.table.length).pfx = bp ∧
          (nodeAt m' m.table.length).value = none)) := by
  constructor
  · intro i hocc
    rcases entry_occupied_elim hW hocc with ⟨hw, hpfx, hlt, hsome⟩
    rcases Option.isSome_iff_exists.1 hsome with ⟨x, hx⟩
    refine ⟨x, hx, ?_, ?_, setValue_length m i (some v),
      fun j hj => nodeAt_setValue_ne m i (some v) hj⟩
    · show some (setValue m i (some v), (nodeAt m i).value) =
        some (setValue m i (some v), some x)
      rw [hx]
    · rw [nodeAt_setValue_self m i (some v) hlt]
  · intro k0 i d hvac
    rcases entry_vacant_elim hW hvac with ⟨hk0, hw, hvnone, hne, hlt, hts⟩
    subst hk0
    rcases vacantInsert_wf hW hw v with ⟨m', nIdx, hcommit, hWm'⟩
    refine ⟨m', nIdx, hcommit, ?_, ?_, ?_, ?_, ?_⟩
    · show (vacantInsert m k0 i d v).map (fun r => (r.1, (none : Option T))) =
        some (m', none)
      rw [hcommit]
      rfl
    · intro hd
      subst hd
      have h := hcommit.symm.trans (shape_reached m k0 i v)
      simp only [Option.some.injEq, Prod.mk.injEq] at h
      rw [h.1, setValue_length]
    · intro r hd
      subst hd
      rcases shape_newLeaf m k0 i r v hlt with ⟨m2, heq, hlen, _⟩
      have h := hcommit.symm.trans heq
      simp only [Option.some.injEq, Prod.mk.injEq] at h
      rw [h.1]
      exact hlen
    · intro r cr hd
      subst hd
      rcases hts with ⟨_, _, c, hc, _⟩
      rcases shape_newChild m k0 i r cr v c hlt hc with ⟨m2, heq, hlen, _⟩
      have h := hcommit.symm.trans heq
      simp only [Option.some.injEq, Prod.mk.injEq] at h
      rw [h.1]
      exact hlen
    · intro bp r pr hd
      subst hd
      rcases hts with ⟨_, _, c, hc, _⟩
      rcases shape_newBranch m k0 bp i r pr v c hlt hc with
        ⟨m2, heq, hlen, _, _, _, _, hbpfx, hbval, _⟩
      have h := hcommit.symm.trans heq
      simp only [Option.some.injEq, Prod.mk.injEq] at h
      exact ⟨by rw [h.1]; exact hlen, by rw [h.1]; exact hbpfx, by rw [h.1]; exact hbval⟩

theorem claim_C4_witness :
    WF mEx ∧
      ((∀ i, mEx.entry [true, true] = some (.occupied i) →
        ∃ x, (nodeAt mEx i).value = some x ∧
          entryInsert mEx (.occupied i) 9 = some (setValue mEx i (some 9), some x) ∧
          (nodeAt (setValue mEx i (some 9)) i).value = some 9 ∧
          (setValue mEx i (some 9)).table.length = mEx.table.length ∧
          (∀ j, j ≠ i → nodeAt (setValue mEx i (some 9)) j = nodeAt mEx j)) ∧
      (∀ k0 i d, mEx.entry [true, true] = some (.vacant k0 i d) →
        ∃ m' nIdx, vacantInsert mEx k0 i d 9 = some (m', nIdx) ∧
          entryInsert mEx (.vacant k0 i d) 9 = some (m', none) ∧
          (d = .reached → m'.table.length = mEx.table.length) ∧
          (∀ r, d = .newLeaf r → m'.table.length = mEx.table.length + 1) ∧
          (∀ r cr, d = .newChild r cr → m'.table.length = mEx.table.length + 1) ∧
          (∀ bp r pr, d = .newBranch bp r pr → m'.table.length = mEx.table.length + 2 ∧
            (nodeAt m' mEx.table.length).pfx = bp ∧
            (nodeAt m' mEx.table.length).value = none))) :=
  ⟨wf_mEx, claim_C4 mEx [true, true] 9 wf_mEx⟩

/-- Claim C5: entry(k) is Occupied iff the arena holds a node whose prefix
equals k with a value, else Vacant; consequently inserting only an ancestor b of
a leaves get(a) = None (exact-match semantics). -/
theorem claim_C5 {T : Type} :
    (∀ (m : PrefixMap T) (key : List Bool), WF m → ∀ e, m.entry key = some e →
      ((∃ i, e = .occupied i) ↔
        ∃ j, j < m.table.length ∧ (nodeAt m j).pfx = key ∧
          (nodeAt m j).value.isSome)) ∧
    (∀ (a b : List Bool) (x : T), b <+: a → b ≠ a →
      ∀ m1 old, (PrefixMap.new T).insert b x = some (m1, old) → m1.get a = none) := by
  constructor
  · intro m key hW e he
    constructor
    · rintro ⟨i, rfl⟩
      rcases entry_occupied_elim hW he with ⟨_, hpfx, hlt, hsome⟩
      exact ⟨i, hlt, hpfx, hsome⟩
    · rintro ⟨j, hj, hpfx, hsome⟩
      have h := entry_occupied_of_mem hW hj hpfx hsome
      rw [he] at h
      exact ⟨j, Option.some.inj h⟩
  · intro a b x hba hbne m1 old hins
    have hab : a ≠ b := fun he => hbne he.symm
    rcases insert_ok (wf_new T) b x with ⟨m1', old', h1, _, _, hframe, _⟩
    rw [hins] at h1
    have h := Option.some.inj h1
    have hfst : m1 = m1' := congrArg Prod.fst h
    rw [← hfst] at hframe
    rw [hframe a hab]
    exact get_new_none a

theorem claim_C5_witness :
    (WF mEx ∧ mEx.entry [true, false] = some (.occupied 1)) ∧
      (([] : List Bool) <+: [true] ∧ ([] : List Bool) ≠ [true]) ∧
      ((∃ i, (EntryE.occupied 1) = .occupied i) ↔
        ∃ j, j < mEx.table.length ∧ (nodeAt mEx j).pfx = [true, false] ∧
          (nodeAt mEx j).value.isSome) ∧
      (∀ m1 old, (PrefixMap.new Nat).insert [] 4 = some (m1, old) →
        m1.get [true] = none) :=
  ⟨⟨wf_mEx, by decide⟩, ⟨⟨[true], rfl⟩, by decide⟩,
    (@claim_C5 Nat).1 mEx [true, false] wf_mEx _ (by decide),
    fun m1 old h =>
      (@claim_C5 Nat).2 [true] [] 4 ⟨[true], rfl⟩ (by decide) m1 old h⟩

/-- Claim C6: or_insert returns the existing value when the key holds one, else
inserts the default and returns it; afterwards the map holds exactly that value
at the key and is unchanged elsewhere; and or_insert_with only invokes the
default closure when the entry is Vacant. -/
theorem claim_C6 {T : Type} (m : PrefixMap T) (k : List Bool) (d : T) (hW : WF m)
    (e : EntryE) (he : m.entry k = some e) :
    (∃ m' w, orInsert m e d = some (m', some w) ∧
      m'.get k = some w ∧
      (∀ x, m.get k = some x → w = x ∧ m' = m) ∧
      (m.get k = none → w = d) ∧
      (∀ k', k' ≠ k → m'.get k' = m.get k')) ∧
    (∀ f : Unit → T, ∃ m2 res called, orInsertWith m e f = some (m2, res, called) ∧
      (called = true ↔ m.get k = none)) := by
  cases e with
  | occupied i =>
    rcases entry_occupied_elim hW he with ⟨hw, hpfx, hlt, hsome⟩
    rcases Option.isSome_iff_exists.1 hsome with ⟨x, hx⟩
    have hget : m.get k = some x := by rw [reached_get hW hw, hx]
    constructor
    · refine ⟨m, x, ?_, hget, ?_, ?_, fun k' _ => rfl⟩
      · show (match (nodeAt m i).value with
          | some x0 => some (m, some x0)
          | none => some (setValue m i (some d), some d)) = some (m, some x)
        rw [hx]
      · intro x0 hx0
        rw [hget] at hx0
        exact ⟨Option.some.inj hx0, rfl⟩
      · intro hnone
        rw [hget] at hnone
        cases hnone
    · intro f
      refine ⟨m, some x, false, ?_, ?_⟩
      · show (match (nodeAt m i).value with
          | some x0 => some (m, some x0, false)
          | none => some (setValue m i (some (f ())), some (f ()), true)) =
          some (m, some x, false)
        rw [hx]
      · simp [hget]
  | vacant k0 i dd =>
    rcases entry_vacant_elim hW he with ⟨hk0, hw, hvnone, hne, hlt, hts⟩
    subst hk0
    have hnone : m.get k0 = none := vacant_get_none hW hw hvnone hne
    rcases vacantInsert_wf hW hw d with ⟨m', nIdx, hcommit, hWm'⟩
    have hval := commit_new_value hW hw hcommit
    constructor
    · refine ⟨m', d, ?_, ?_, ?_, fun _ => rfl, ?_⟩
      · show (vacantInsert m k0 i dd d).map (fun r => (r.1, (nodeAt r.1 r.2).value)) =
          some (m', some d)
        rw [hcommit]
        simp [hval]
      · exact (get_iff_gets hWm'.2.2.1).2 (commit_gets hW hw hcommit)
      · intro x hx
        rw [hnone] at hx
        cases hx
      · exact commit_frame hW hw hcommit
    · intro f
      rcases vacantInsert_wf hW hw (f ()) with ⟨m2, n2, hcommit2, _⟩
      refine ⟨m2, (nodeAt m2 n2).value, true, ?_, ?_⟩
      · show (vacantInsert m k0 i dd (f ())).map
          (fun r => (r.1, (nodeAt r.1 r.2).value, true)) =
          some (m2, (nodeAt m2 n2).value, true)
        rw [hcommit2]
        rfl
      · simp [hnone]

theorem claim_C6_witness :
    (WF mEx ∧ mEx.entry [true, false] = some (.occupied 1)) ∧
      ((∃ m' w, orInsert mEx (.occupied 1) 3 = some (m', some w) ∧
        m'.get [true, false] = some w ∧
        (∀ x, mEx.get [true, false] = some x → w = x ∧ m' = mEx) ∧
        (mEx.get [true, false] = none → w = 3) ∧
        (∀ k', k' ≠ [true, false] → m'.get k' = mEx.get k')) ∧
      (∀ f : Unit → ℕ, ∃ m2 res called,
        orInsertWith mEx (.occupied 1) f = some (m2, res, called) ∧
        (called = true ↔ mEx.get [true, false] = none))) :=
  ⟨⟨wf_mEx, by decide⟩, claim_C6 mEx [true, false] 3 wf_mEx (.occupied 1) (by decide)⟩

/-- Claim C7: and_modify applies the function in place only on an Occupied
entry, returns the same entry for chaining, never turns Vacant into Occupied,
and on a missing key leaves the map untouched (no node is created). -/
theorem claim_C7 {T : Type} (m : PrefixMap T) (k : List Bool) (f : T → T) (hW : WF m)
    (e : EntryE) (he : m.entry k = some e) :
    ((andModify m e f).2 = e) ∧
    ((andModify m e f).1.table.length = m.table.length) ∧
    (∀ k0 i d, e = .vacant k0 i d → andModify m e f = (m, e)) ∧
    (∀ i, e = .occupied i →
      (andModify m e f).1.get k = (m.get k).map f ∧
      (∀ k', k' ≠ k → (andModify m e f).1.get k' = m.get k')) := by
  cases e with
  | vacant k0 i d =>
    exact ⟨rfl, rfl, fun _ _ _ _ => rfl, fun i h => by cases h⟩
  | occupied i =>
    rcases entry_occupied_elim hW he with ⟨hw, hpfx, hlt, hsome⟩
    refine ⟨rfl, setValue_length m i _, ?_, ?_⟩
    · intro k1 i1 d1 h
      cases h
    intro i0 h
    have hii : i0 = i := by cases h; rfl
    subst hii
    constructor
    · show (setValue m i0 ((nodeAt m i0).value.map f)).get k = (m.get k).map f
      rw [get_setValue_reached hW hw ((nodeAt m i0).value.map f), reached_get hW hw]
    · intro k' hk
      show (setValue m i0 ((nodeAt m i0).value.map f)).get k' = m.get k'
      have hnekey : (nodeAt m i0).pfx ≠ k' := by
        rw [hpfx]
        exact fun heq => hk heq.symm
      exact get_setValue_frame hW hnekey

theorem claim_C7_witness :
    (WF mEx ∧ mEx.entry [true, true] = some (.vacant [true, true] 0
      (.newBranch [true] true true))) ∧
      (((andModify mEx (.vacant [true, true] 0 (.newBranch [true] true true))
          (fun x => x + 1)).2 = .vacant [true, true] 0 (.newBranch [true] true true)) ∧
      ((andModify mEx (.vacant [true, true] 0 (.newBranch [true] true true))
          (fun x => x + 1)).1.table.length = mEx.table.length) ∧
      (∀ k0 i d, (EntryE.vacant [true, true] 0 (.newBranch [true] true true)) =
          .vacant k0 i d →
        andModify mEx (.vacant [true, true] 0 (.newBranch [true] true true))
          (fun x => x + 1) =
          (mEx, .vacant [true, true] 0 (.newBranch [true] true true))) ∧
      (∀ i, (EntryE.vacant [true, true] 0 (.newBranch [true] true true)) =
          .occupied i →
        (andModify mEx (.vacant [true, true] 0 (.newBranch [true] true true))
            (fun x => x + 1)).1.get [true, true] =
          (mEx.get [true, true]).map (fun x => x + 1) ∧
        (∀ k', k' ≠ [true, true] →
          (andModify mEx (.vacant [true, true] 0 (.newBranch [true] true true))
              (fun x => x + 1)).1.get k' = mEx.get k'))) :=
  ⟨⟨wf_mEx, by decide⟩,
    claim_C7 mEx [true, true] (fun x => x + 1) wf_mEx
      (.vacant [true, true] 0 (.newBranch [true] true true)) (by decide)⟩

/-- Claim C8: OccupiedEntry::remove returns the stored value and only clears it
(the node record persists, degraded to a branch): after inserting an ancestor k1
and a descendant k2, removing the value of k1 leaves get(k2) unchanged and
get(k1) = None, and a later insert(k1, y) reuses the persisting node without
restructuring (no arena growth). -/
theorem claim_C8 {T : Type} (m : PrefixMap T) (k1 k2 : List Bool) (x z y : T)
    (hW : WF m) (h12 : k1 <+: k2) (hne12 : k1 ≠ k2) :
    ∃ m1 o1 m2 o2 i m3 m4,
      m.insert k1 x = some (m1, o1) ∧
      m1.insert k2 z = some (m2, o2) ∧
      m2.entry k1 = some (.occupied i) ∧
      occRemove m2 i = (m3, some x) ∧
      m3.table.length = m2.table.length ∧
      (nodeAt m3 i).pfx = (nodeAt m2 i).pfx ∧
      (nodeAt m3 i).value = none ∧
      (∀ j, j ≠ i → nodeAt m3 j = nodeAt m2 j) ∧
      m3.get k2 = some z ∧
      m3.get k1 = none ∧
      m3.insert k1 y = some (m4, none) ∧
      m4.table.length = m3.table.length ∧
      m4.get k2 = some z := by
  rcases insert_ok hW k1 x with ⟨m1, o1, hins1, hW1, hget1, hframe1, _⟩
  rcases insert_ok hW1 k2 z with ⟨m2, o2, hins2, hW2, hget2, hframe2, _⟩
  have hg21 : m2.get k1 = some x := by rw [hframe2 k1 hne12, hget1]
  rcases get_some_exists hW2 hg21 with ⟨i, hi, hpfx, hvx⟩
  have hocc : m2.entry k1 = some (.occupied i) :=
    entry_occupied_of_mem hW2 hi hpfx (by rw [hvx]; rfl)
  have hwalk2 : entryGo m2 k1 0 (k1.length + 1) = some (i, .reached) :=
    (entry_occupied_elim hW2 hocc).1
  have hrem : occRemove m2 i = (setValue m2 i none, some x) := by
    rw [occRemove, hvx]
  have hW3 : WF (setValue m2 i none) := wf_setValue hW2 i none
  have hg3k2 : (setValue m2 i none).get k2 = some z := by
    rw [get_setValue_frame hW2 (by rw [hpfx]; exact hne12), hget2]
  have hg3k1 : (setValue m2 i none).get k1 = none :=
    get_setValue_reached hW2 hwalk2 none
  have hpfx3 : (nodeAt (setValue m2 i none) i).pfx = k1 := by
    rw [pfx_setValue]
    exact hpfx
  have hi3 : i < (setValue m2 i none).table.length := by
    rw [setValue_length]
    exact hi
  have hval3 : (nodeAt (setValue m2 i none) i).value = none := by
    rw [nodeAt_setValue_self m2 i none hi]
  have hwalk3 : entryGo (setValue m2 i none) k1 0 (k1.length + 1) =
      some (i, .reached) := entry_at_existing hW3 hi3 hpfx3
  have hentry3 : (setValue m2 i none).entry k1 = some (.vacant k1 i .reached) := by
    rw [PrefixMap.entry, hwalk3]
    simp [hval3]
  have hins3 : (setValue m2 i none).insert k1 y =
      some (setValue (setValue m2 i none) i (some y), none) := by
    rw [PrefixMap.insert, hentry3]
    show (vacantInsert (setValue m2 i none) k1 i .reached y).map
      (fun r => (r.1, (none : Option T))) = _
    rw [shape_reached]
    rfl
  refine ⟨m1, o1, m2, o2, i, setValue m2 i none, setValue (setValue m2 i none) i (some y),
    hins1, hins2, hocc, hrem, setValue_length m2 i none, ?_, hval3, ?_, hg3k2, hg3k1,
    hins3, setValue_length _ i _, ?_⟩
  · rw [pfx_setValue]
  · intro j hj
    exact nodeAt_setValue_ne m2 i none hj
  · rw [get_setValue_frame hW3 (by rw [hpfx3]; exact hne12)]
    exact hg3k2

theorem claim_C8_witness :
    (WF (PrefixMap.new Nat) ∧ [true] <+: [true, false] ∧
      ([true] : List Bool) ≠ [true, false]) ∧
      (∃ m1 o1 m2 o2 i m3 m4,
        (PrefixMap.new Nat).insert [true] 10 = some (m1, o1) ∧
        m1.insert [true, false] 20 = some (m2, o2) ∧
        m2.entry [true] = some (.occupied i) ∧
        occRemove m2 i = (m3, some 10) ∧
        m3.table.length = m2.table.length ∧
        (nodeAt m3 i).pfx = (nodeAt m2 i).pfx ∧
        (nodeAt m3 i).value = none ∧
        (∀ j, j ≠ i → nodeAt m3 j = nodeAt m2 j) ∧
        m3.get [true, false] = some 20 ∧
        m3.get [true] = none ∧
        m3.insert [true] 30 = some (m4, none) ∧
        m4.table.length = m3.table.length ∧
        m4.get [true, false] = some 20) :=
  ⟨⟨wf_new Nat, ⟨[false], rfl⟩, by decide⟩,
    claim_C8 (PrefixMap.new Nat) [true] [true, false] 10 20 30 (wf_new Nat)
      ⟨[false], rfl⟩ (by decide)⟩

/-- Claim C9: the internal invariant failures are unreachable through the public
API: every Occupied entry's node holds a value (so the unwraps in
OccupiedEntry::get, get_mut, insert and remove never fire), and the direction
captured by a Vacant entry is never Enter (so VacantEntry::_insert never reaches
the unreachable branch). -/
theorem claim_C9 {T : Type} (m : PrefixMap T) (k : List Bool) (hW : WF m) :
    (∀ i, m.entry k = some (.occupied i) →
      ∃ x, (nodeAt m i).value = some x ∧ occGet m i = some x ∧
        (∀ v, (occInsert m i v).2 = some x) ∧ (occRemove m i).2 = some x) ∧
    (∀ k0 i d, m.entry k = some (.vacant k0 i d) → ∀ nx r, d ≠ .enter nx r) := by
  constructor
  · intro i hocc
    rcases entry_occupied_elim hW hocc with ⟨_, _, _, hsome⟩
    rcases Option.isSome_iff_exists.1 hsome with ⟨x, hx⟩
    exact ⟨x, hx, hx, fun v => hx, hx⟩
  · intro k0 i d hvac
    exact (entry_vacant_elim hW hvac).2.2.2.1

theorem claim_C9_witness :
    WF mEx ∧
      ((∀ i, mEx.entry [true, false] = some (.occupied i) →
        ∃ x, (nodeAt mEx i).value = some x ∧ occGet mEx i = some x ∧
          (∀ v, (occInsert mEx i v).2 = some x) ∧ (occRemove mEx i).2 = some x) ∧
      (∀ k0 i d, mEx.entry [true, false] = some (.vacant k0 i d) →
        ∀ nx r, d ≠ .enter nx r)) :=
  ⟨wf_mEx, claim_C9 mEx [true, false] wf_mEx⟩

/-- Claim C10: when a Vacant entry captures a NewChild or NewBranch direction,
the captured node already has a child on the indicated side (the displaced
subtree), so the set_child unwrap inside VacantEntry::_insert never panics and
the commit always succeeds. -/
theorem claim_C10 {T : Type} (m : PrefixMap T) (k : List Bool) (hW : WF m) :
    ∀ k0 i d, m.entry k = some (.vacant k0 i d) →
      (∀ r cr, d = .newChild r cr → ∃ c, childAt m i r = some c) ∧
      (∀ bp r pr, d = .newBranch bp r pr → ∃ c, childAt m i r = some c) ∧
      (∀ v : T, ∃ m' nIdx, vacantInsert m k0 i d v = some (m', nIdx)) := by
  intro k0 i d hvac
  rcases entry_vacant_elim hW hvac with ⟨hk0, hw, hvnone, hne, hlt, hts⟩
  subst hk0
  refine ⟨?_, ?_, ?_⟩
  · intro r cr hd
    subst hd
    rcases hts with ⟨_, _, c, hc, _⟩
    exact ⟨c, hc⟩
  · intro bp r pr hd
    subst hd
    rcases hts with ⟨_, _, c, hc, _⟩
    exact ⟨c, hc⟩
  · intro v
    rcases vacantInsert_wf hW hw v with ⟨m', nIdx, hcommit, _⟩
    exact ⟨m', nIdx, hcommit⟩

theorem claim_C10_witness :
    WF mEx ∧
      (∀ k0 i d, mEx.entry [true, true] = some (.vacant k0 i d) →
        (∀ r cr, d = .newChild r cr → ∃ c, childAt mEx i r = some c) ∧
        (∀ bp r pr, d = .newBranch bp r pr → ∃ c, childAt mEx i r = some c) ∧
        (∀ v : Nat, ∃ m' nIdx, vacantInsert mEx k0 i d v = some (m', nIdx))) :=
  ⟨wf_mEx, claim_C10 mEx [true, true] wf_mEx⟩

end PrefixTrie
